import Mathlib

/-!
Verification of the rcache library: a read-through, in-memory cache of byte
payloads with hierarchical (dependency-declaring) keys, plus an LRU-bounded
decorator.

The Go source is shallowly embedded as follows.

Sequential engine model (`CacheState`, `GetCacheEntry`, `Peek`, `Invalidate`,
`Size`): the entry table `map[CacheKey]*CacheEntry` becomes an association
list with structurally-compared keys; the running byte total `cacheSize`
(a Go `int64`, modelled as `Int`; payloads are real in-memory slices, so the
sum of their lengths cannot overflow an `int64`) is carried alongside.  A
fetcher invocation is an oracle `K → FetchRes`; each `GetCacheEntry` call is
given the oracle describing what the registered producer would return at
that moment, which lets a producer fail on one attempt and succeed on the
next.  In a sequential execution an entry is only observable after its fetch
resolved, and erroring entries are deleted before the call returns, so the
table stores resolved successful payloads; the transient pending state is
modelled separately (below).  Timestamps (`Created` / `Accessed`) are not
modelled: no claim depends on time.

Recursive invalidation (`invalidate` / `invalidateDependents` in the source)
removes the entry, then rescans the table for cached keys whose
`Dependencies()` contain the removed key, recursing.  The Go recursion
terminates because each recursive call first deletes an entry; the embedding
makes that argument explicit with a fuel parameter that returns `none` when
exhausted, and `Invalidate` supplies fuel `table.length + 1`, which is
proved sufficient.

LRU decorator model (`LruState`, `lruGet`, `lruInvalidate`): the
`container/list` recency list (least recently used at the front) becomes a
`List K`; the `elementMap` side index exists in Go only to make removal O(1)
and carries no extra semantic state, so it is represented by the list
itself.  `lru.Invalidate` calls `list.Remove(l.elementMap[key])`, which
dereferences a nil pointer (a runtime crash) when the key is cached in the
delegate but absent from the recency index; the embedding returns `none`
there.  The eviction loop in `lru.Get` pops the front of the recency list
while `Size() > maxSizeBytes`; if the list empties while still over budget
the Go code crashes on `Remove(nil)` of the nil front, and the model
returns `none` there as well, so `lru.Get` as a whole returns an `Option`:
`none` is exactly a crash of the Go code inside the eviction loop.  The
loop's fuel is one more than the length of the recency list; since every
iteration either removes a list element or crashes, the fuel can never be
exhausted in the calls `lru.Get` makes, so the fuel-0 `none` branch is
unreachable and the `Option` semantics is exact.

Concurrent model (`GState`, `step`, `run`): a small-step interleaving
semantics of `cache.GetCacheEntry` projected onto one fixed, initially
absent key, executed by N threads.  Operations on distinct keys interact
only through the table lock, which the atomic steps absorb, so the
projection is faithful for per-key claims.  Each lock-protected region of
the source is one atomic step; the producer call plus `wg.Done()` is one
step (the written result is only ever read after `wg.Wait()` returns, so
the combination is observationally atomic); waiting on a pending entry is a
step enabled only once the entry resolved.  Entries are numbered by
creation order so that a waiter holds a reference to the concrete entry it
found, even if that entry is later deleted from the table.
-/

namespace RCache

/-- Result of one producer (fetcher) invocation: in Go a `([]byte, error)`
pair where the byte slice is empty whenever the error is non-nil, hence
faithfully a sum; error values are abstracted to numeric codes. -/
inductive FetchRes where
  | ok : List Nat → FetchRes
  | error : Nat → FetchRes
deriving DecidableEq

section Engine

variable {K : Type} [DecidableEq K]

/-- Lookup in the entry table (Go map indexing `c.cache[key]`). -/
def findEntry (k : K) : List (K × List Nat) → Option (List Nat)
  | [] => none
  | (k2, v) :: t => if k = k2 then some v else findEntry k t

/-- Deletion from the entry table (Go `delete(c.cache, key)`). -/
def removeKey (k : K) : List (K × List Nat) → List (K × List Nat)
  | [] => []
  | (k2, v) :: t => if k = k2 then t else (k2, v) :: removeKey k t

/-- State of the core cache engine: the entry table and the running byte
total `cacheSize`. -/
structure CacheState (K : Type) where
  table : List (K × List Nat)
  cacheSize : Int
deriving DecidableEq

/-- Sum of the payload byte lengths of the entries in a table. -/
def sumLens (t : List (K × List Nat)) : Int :=
  (t.map fun p => (p.2.length : Int)).sum

/-- Size invariant: the running total equals the sum of cached payload
lengths (source: `cache.Size` returns `c.cacheSize`). -/
def sizeInv (s : CacheState K) : Prop :=
  s.cacheSize = sumLens s.table

/-- Whether a key currently has an entry. -/
def hasKey (s : CacheState K) (k : K) : Bool :=
  (findEntry k s.table).isSome

/-- Sequential projection of `cache.GetCacheEntry` (part_002 lines 54-85).
Returns the result handed to the caller, the post-state, and whether the
producer was invoked.  Hit: return the cached entry, no fetch.  Miss: a
pending entry is created, the producer runs, then under the lock an
erroring entry is deleted (net: state unchanged) while a successful one is
kept and its payload length added to `cacheSize`. -/
def GetCacheEntry (fetch : K → FetchRes) (s : CacheState K) (k : K) :
    FetchRes × CacheState K × Bool :=
  match findEntry k s.table with
  | some bs => (FetchRes.ok bs, s, false)
  | none =>
    match fetch k with
    | FetchRes.ok bs =>
      (FetchRes.ok bs, ⟨(k, bs) :: s.table, s.cacheSize + (bs.length : Int)⟩, true)
    | FetchRes.error e => (FetchRes.error e, s, true)

/-- Sequential projection of `cache.Peek` (part_002 lines 87-96): reports
whether the key has an entry whose fetch succeeded; never fetches and never
mutates the table (the source only reads under the lock). -/
def Peek (s : CacheState K) (k : K) : Bool :=
  (findEntry k s.table).isSome

/-- Snapshot of all current entries, `cache.Entries` (part_002 lines
98-106); iteration order unspecified, represented by the table itself. -/
def Entries (s : CacheState K) : List (K × List Nat) :=
  s.table

/-- One pass of the dependent scan in `cache.invalidateDependents`
(part_002 lines 132-141): walk the snapshot of cached keys, and for each
whose `Dependencies()` contain the invalidated key, recursively invalidate
it via `inv` (already-removed keys are no-ops because `invalidate` rechecks
presence).  Parameterised by the recursive invalidation at lower fuel. -/
def invalidateDepsAux (deps : K → List K)
    (inv : CacheState K → K → Option (CacheState K × Bool)) :
    List K → CacheState K → K → Option (CacheState K)
  | [], s, _ => some s
  | k2 :: rest, s, key =>
    if key ∈ deps k2 then
      match inv s k2 with
      | none => none
      | some (s2, _) => invalidateDepsAux deps inv rest s2 key
    else
      invalidateDepsAux deps inv rest s key

/-- Fuelled embedding of `cache.invalidate` (part_002 lines 118-130): if
the key is absent return `false`; otherwise subtract the payload length,
delete the entry, and when `recursive` scan for dependents.  `none` models
fuel exhaustion; `Invalidate` below supplies provably sufficient fuel. -/
def invalidateOpt (deps : K → List K) :
    Nat → CacheState K → K → Bool → Option (CacheState K × Bool)
  | 0, _, _, _ => none
  | fuel + 1, s, key, recursive =>
    match findEntry key s.table with
    | none => some (s, false)
    | some bs =>
      match recursive with
      | true =>
        match invalidateDepsAux deps (fun s2 k2 => invalidateOpt deps fuel s2 k2 true)
            ((removeKey key s.table).map Prod.fst)
            ⟨removeKey key s.table, s.cacheSize - (bs.length : Int)⟩ key with
        | none => none
        | some s2 => some (s2, true)
      | false =>
        some (⟨removeKey key s.table, s.cacheSize - (bs.length : Int)⟩, true)

/-- Public `cache.Invalidate` (part_002 lines 108-112): runs `invalidate`
under the lock.  The fuel `table.length + 1` is proved sufficient
(`invalidateOpt_isSome`), so the default branch is never taken. -/
def Invalidate (deps : K → List K) (s : CacheState K) (key : K)
    (recursive : Bool) : CacheState K × Bool :=
  (invalidateOpt deps (s.table.length + 1) s key recursive).getD (s, false)

/-- One engine operation: a `Get` (carrying the producer oracle for that
call) or an `Invalidate`. -/
inductive CacheOp (K : Type) where
  | get : (K → FetchRes) → K → CacheOp K
  | inval : K → Bool → CacheOp K

/-- Effect of one operation on the engine state. -/
def execOp (deps : K → List K) (s : CacheState K) : CacheOp K → CacheState K
  | CacheOp.get f k => (GetCacheEntry f s k).2.1
  | CacheOp.inval k r => (Invalidate deps s k r).1

/-- Effect of a sequence of operations, run left to right. -/
def execOps (deps : K → List K) (s : CacheState K) (ops : List (CacheOp K)) :
    CacheState K :=
  ops.foldl (execOp deps) s

end Engine

section Lru

variable {K : Type} [DecidableEq K]

/-- State of the LRU decorator (lru.go lines 10-16): the wrapped engine
plus the recency order, least recently used at the front.  The Go
`elementMap` is a constant-time index into the linked list and carries no
further state, so the list represents both. -/
structure LruState (K : Type) where
  cache : CacheState K
  order : List K
deriving DecidableEq

/-- Removal of a key from the recency order (Go
`l.elementList.Remove(l.elementMap[key])` on a key present in the index). -/
def removeFromOrder (k : K) : List K → List K
  | [] => []
  | k2 :: t => if k = k2 then t else k2 :: removeFromOrder k t

/-- Embedding of `lru.Invalidate` (lru.go lines 42-52): the `recursive`
argument is accepted but deliberately ignored by the source (its TODO notes
recursive invalidation of the LRU does not work) — the delegate is always
invalidated non-recursively; if that succeeded, the key is also dropped
from the recency structures.  When the delegate held the key but the
recency index did not (possible after a direct `lru.GetCacheEntry`),
`l.elementMap[key]` is nil and `list.Remove(nil)` crashes: modelled as
`none`. -/
def lruInvalidate (deps : K → List K) (l : LruState K) (k : K)
    (recursive : Bool) : Option (LruState K × Bool) :=
  let res := Invalidate deps l.cache k false
  if res.2 then
    if k ∈ l.order then some (⟨res.1, removeFromOrder k l.order⟩, true)
    else none
  else some (⟨res.1, l.order⟩, false)

/-- Embedding of `lru.GetCacheEntry` (lru.go lines 58-60): pure delegation
to the wrapped engine, no recency bookkeeping at all. -/
def lruGetCacheEntry (fetch : K → FetchRes) (l : LruState K) (k : K) :
    FetchRes × LruState K :=
  let r := GetCacheEntry fetch l.cache k
  (r.1, ⟨r.2.1, l.order⟩)

/-- Eviction loop of `lru.Get` (lru.go lines 73-79): while the delegate
size exceeds the budget, remove the front (least recently used) key from
the recency order and invalidate it non-recursively on the delegate.
When the condition still holds on an empty list, `Front()` is nil and
`list.Remove(nil)` crashes: modelled as `none`, like `lruInvalidate`.
Each iteration removes one list element, so with fuel one more than the
list length (what `lruGet` supplies) the fuel-0 branch is unreachable;
it also returns `none` so that it can never fake a completed loop. -/
def evict (deps : K → List K) (max : Int) :
    Nat → CacheState K → List K → Option (CacheState K × List K)
  | 0, _, _ => none
  | fuel + 1, c, ord =>
    if c.cacheSize > max then
      match ord with
      | [] => none
      | f :: rest => evict deps max fuel (Invalidate deps c f false).1 rest
    else some (c, ord)

/-- Embedding of `lru.Get` (lru.go lines 62-84): fetch through the
delegate; on success, move the key to the back of the recency order (or
append it if new), then run the eviction loop; on producer error, no
recency bookkeeping and no eviction.  `none` means the eviction loop
crashed (nil `Remove`) and the call never returned to its caller. -/
def lruGet (deps : K → List K) (max : Int) (fetch : K → FetchRes)
    (l : LruState K) (k : K) : Option (FetchRes × LruState K) :=
  let r := GetCacheEntry fetch l.cache k
  match r.1 with
  | FetchRes.error e => some (FetchRes.error e, ⟨r.2.1, l.order⟩)
  | FetchRes.ok bs =>
    let ord1 := if k ∈ l.order then removeFromOrder k l.order ++ [k]
                else l.order ++ [k]
    match evict deps max (ord1.length + 1) r.2.1 ord1 with
    | none => none
    | some ev => some (FetchRes.ok bs, ⟨ev.1, ev.2⟩)

/-- Effect of a sequence of `lru.Get` calls (each with its own producer
oracle), run left to right; a crashed call aborts the remainder of the
sequence.  Used to state frame properties over arbitrary later traffic. -/
def lruGetOps (deps : K → List K) (max : Int) :
    List ((K → FetchRes) × K) → LruState K → Option (LruState K)
  | [], l => some l
  | op :: rest, l =>
    match lruGet deps max op.1 l op.2 with
    | none => none
    | some res => lruGetOps deps max rest res.2

end Lru

section Concurrent

/-- Program counter of one thread executing `cache.GetCacheEntry` on the
shared key (part_002 lines 54-85).  `waiting eid` = found entry `eid` in
the table and is blocked in `entry.wg.Wait()`; `fetching eid` = created
entry `eid` and is about to run the producer; `cleanup eid r` = producer
returned `r`, `wg.Done()` executed, about to run the locked error-delete /
size-add section; `done r` = the call returned `r` to its caller. -/
inductive TState where
  | start : TState
  | waiting : Nat → TState
  | fetching : Nat → TState
  | cleanup : Nat → FetchRes → TState
  | done : FetchRes → TState
deriving DecidableEq

/-- Global state of the concurrent model for one key: `tableK` is
`c.cache[key]` (the id of the entry currently in the table, if any),
`results` maps each created entry id to `none` while pending and `some r`
once its fetch resolved (`wg` released), `fetchCount` counts producer
invocations, `cacheSize` mirrors `c.cacheSize`, and `threads` are the
per-caller program counters. -/
structure GState where
  tableK : Option Nat
  results : List (Option FetchRes)
  fetchCount : Nat
  cacheSize : Int
  threads : List TState
deriving DecidableEq

/-- One atomic step of thread `i`.  `produce n` is the result of the
`(n+1)`-th producer invocation.  `none` means thread `i` cannot step:
it is out of range, already returned, or blocked in `wg.Wait()` on an
unresolved entry. -/
def step (produce : Nat → FetchRes) (g : GState) (i : Nat) : Option GState :=
  match g.threads.get? i with
  | none => none
  | some TState.start =>
    match g.tableK with
    | some eid => some { g with threads := g.threads.set i (TState.waiting eid) }
    | none =>
      some { g with tableK := some g.results.length,
                    results := g.results ++ [none],
                    threads := g.threads.set i (TState.fetching g.results.length) }
  | some (TState.waiting eid) =>
    match g.results.get? eid with
    | some (some r) => some { g with threads := g.threads.set i (TState.done r) }
    | _ => none
  | some (TState.fetching eid) =>
    some { g with results := g.results.set eid (some (produce g.fetchCount)),
                  fetchCount := g.fetchCount + 1,
                  threads := g.threads.set i (TState.cleanup eid (produce g.fetchCount)) }
  | some (TState.cleanup _ r) =>
    match r with
    | FetchRes.error _ =>
      some { g with tableK := none, threads := g.threads.set i (TState.done r) }
    | FetchRes.ok bs =>
      some { g with cacheSize := g.cacheSize + (bs.length : Int),
                    threads := g.threads.set i (TState.done r) }
  | some (TState.done _) => none

/-- Run a schedule (list of thread choices); a choice whose thread cannot
step leaves the state unchanged. -/
def run (produce : Nat → FetchRes) (g : GState) (sched : List Nat) : GState :=
  sched.foldl (fun g2 i => (step produce g2 i).getD g2) g

/-- Initial state: the key absent, no entries, N callers about to enter
`GetCacheEntry`. -/
def initG (N : Nat) : GState :=
  ⟨none, [], 0, 0, List.replicate N TState.start⟩

/-- Observation made by `cache.Peek` (part_002 lines 87-96) on the
concurrent state: `some false` when the key is absent (return without
waiting), `some b` when the entry resolved (`wg.Wait()` returns at once and
`b` is `entry.Error == nil`), and `none` while the entry is pending (the
caller is blocked in `wg.Wait()` and has not returned yet).  Peek mutates
nothing: the source only reads the table under the lock. -/
def peekK (g : GState) : Option Bool :=
  match g.tableK with
  | none => some false
  | some eid =>
    match g.results.get? eid with
    | some (some (FetchRes.ok _)) => some true
    | some (some (FetchRes.error _)) => some false
    | _ => none

end Concurrent

section DependencyReachability

variable {K : Type}

/-- Transitive dependency relation used to state recursive invalidation:
`DependsOn deps ks key k` holds when `k` reaches `key` through a chain of
`Dependencies()` edges whose endpoints are all drawn from the cached key
set `ks` — precisely the keys `cache.invalidateDependents` removes, since
its table scan can only pass through currently cached intermediates. -/
inductive DependsOn (deps : K → List K) (ks : List K) : K → K → Prop where
  | direct : ∀ {key k : K}, key ∈ deps k → k ∈ ks → DependsOn deps ks key k
  | tail : ∀ {key m k : K}, DependsOn deps ks key m → m ∈ deps k → k ∈ ks →
      DependsOn deps ks key k

end DependencyReachability

section ConcurrentInvariant

/-- Thread-local invariant of the concurrent model when the first producer
invocation succeeds with payload `b`: only entry 0 is ever created, a
fetching thread exists only while entry 0 is pending, and cleanup / done
threads carry the resolved successful result. -/
def tOK (b : List Nat) (res : List (Option FetchRes)) : TState → Prop
  | TState.start => True
  | TState.waiting eid => eid = 0
  | TState.fetching eid => eid = 0 ∧ res = [none]
  | TState.cleanup eid r => eid = 0 ∧ r = FetchRes.ok b ∧
      res = [some (FetchRes.ok b)]
  | TState.done r => r = FetchRes.ok b ∧ res = [some (FetchRes.ok b)]

/-- At most one thread is between entry creation and `wg.Done()`. -/
def atMostOneFetching (ts : List TState) : Prop :=
  ∀ i j ei ej, ts.get? i = some (TState.fetching ei) →
    ts.get? j = some (TState.fetching ej) → i = j

/-- Global invariant of the concurrent model under a first-invocation
success `b`. -/
def InvC (b : List Nat) (g : GState) : Prop :=
  (g.results = [] ∨ g.results = [none] ∨ g.results = [some (FetchRes.ok b)]) ∧
  g.tableK = (if g.results = [] then none else some 0) ∧
  g.fetchCount = (if g.results = [some (FetchRes.ok b)] then 1 else 0) ∧
  (∀ j t, g.threads.get? j = some t → tOK b g.results t) ∧
  atMostOneFetching g.threads

end ConcurrentInvariant

/-! ### Concrete instances used by the claim theorems -/

section ConcreteInstances

/-- Dependency map with `Dependencies(1) = [0]`, all other keys
dependency-free: key 1 plays B depending on key 0 playing A. -/
def deps01 : Nat → List Nat := fun k => if k = 1 then [0] else []

/-- Cache state with both A (key 0) and B (key 1) populated. -/
def sAB : CacheState Nat := ⟨[(1, [9]), (0, [7])], 2⟩

/-- Cyclic dependency map: 0 and 1 depend on each other. -/
def depsCyc : Nat → List Nat :=
  fun k => if k = 0 then [1] else if k = 1 then [0] else []

/-- Cache state holding the cyclic keys 0 and 1. -/
def sCyc : CacheState Nat := ⟨[(0, [1]), (1, [2, 3])], 3⟩

/-- Dependency-free key space (every key behaves like `StrKey`). -/
def depsNone : Nat → List Nat := fun _ => []

/-- Producer giving key `k` a payload of `k + 1` bytes: keys 0..4 play
a,b,c,d,e with sizes 1,2,3,4,5. -/
def fetchSizes : Nat → FetchRes := fun k => FetchRes.ok (List.replicate (k + 1) 0)

/-- Empty LRU cache. -/
def lru0 : LruState Nat := ⟨⟨[], 0⟩, []⟩

/-- States of the budget-9 LRU scenario after Get a, b, c, a again, d, e
(keys 0..4), written out explicitly; the claim theorem proves each one is
the exact outcome of the corresponding completed `lruGet` step. -/
def lruA : LruState Nat := ⟨⟨[(0, [0])], 1⟩, [0]⟩

def lruB : LruState Nat := ⟨⟨[(1, [0, 0]), (0, [0])], 3⟩, [0, 1]⟩

def lruC : LruState Nat :=
  ⟨⟨[(2, [0, 0, 0]), (1, [0, 0]), (0, [0])], 6⟩, [0, 1, 2]⟩

def lruA2 : LruState Nat :=
  ⟨⟨[(2, [0, 0, 0]), (1, [0, 0]), (0, [0])], 6⟩, [1, 2, 0]⟩

def lruD : LruState Nat :=
  ⟨⟨[(3, [0, 0, 0, 0]), (2, [0, 0, 0]), (0, [0])], 8⟩, [2, 0, 3]⟩

def lruE : LruState Nat :=
  ⟨⟨[(4, [0, 0, 0, 0, 0]), (3, [0, 0, 0, 0])], 9⟩, [3, 4]⟩

/-- Producer returning a 2-byte payload for every key. -/
def bigFetch : Nat → FetchRes := fun _ => FetchRes.ok [0, 0]

/-- Producer that fails on its first invocation (error 7) and succeeds on
every later one. -/
def produceEF : Nat → FetchRes :=
  fun i => if i = 0 then FetchRes.error 7 else FetchRes.ok [1]

/-- Producer that always succeeds with payload `[1]`. -/
def produceOK : Nat → FetchRes := fun _ => FetchRes.ok [1]

/-- Producer that always fails with error 3. -/
def fetchErr3 : Nat → FetchRes := fun _ => FetchRes.error 3

/-- Producer that always succeeds with payload `[1, 2]`. -/
def fetchOk12 : Nat → FetchRes := fun _ => FetchRes.ok [1, 2]

/-- Engine state holding key 0 with payload `[5]`. -/
def sPeek : CacheState Nat := ⟨[(0, [5])], 1⟩

/-- Concurrent state with a pending entry for the key. -/
def gPending : GState := ⟨some 0, [none], 0, 0, [TState.fetching 0]⟩

/-- Concurrent state whose entry resolved with an error. -/
def gFailed : GState :=
  ⟨some 0, [some (FetchRes.error 2)], 1, 0, [TState.cleanup 0 (FetchRes.error 2)]⟩

end ConcreteInstances

/-! ### Basic lemmas about the table operations -/

section TableLemmas

variable {K : Type} [DecidableEq K]

theorem findEntry_mem {k : K} {v : List Nat} :
    ∀ {t : List (K × List Nat)}, findEntry k t = some v → (k, v) ∈ t := by
  intro t
  induction t with
  | nil => intro h; simp [findEntry] at h
  | cons p rest ih =>
    obtain ⟨pk, pv⟩ := p
    intro h
    simp only [findEntry] at h
    by_cases hk : k = pk
    · rw [if_pos hk] at h
      apply List.mem_cons.mpr
      left
      rw [hk, Option.some_inj.mp h]
    · rw [if_neg hk] at h
      exact List.mem_cons_of_mem _ (ih h)

theorem mem_findEntry_isSome {k : K} {v : List Nat} :
    ∀ {t : List (K × List Nat)}, (k, v) ∈ t → (findEntry k t).isSome = true := by
  intro t
  induction t with
  | nil => intro h; simp at h
  | cons p rest ih =>
    obtain ⟨pk, pv⟩ := p
    intro h
    simp only [findEntry]
    by_cases hk : k = pk
    · rw [if_pos hk]; rfl
    · rw [if_neg hk]
      rcases List.mem_cons.mp h with h1 | h1
      · exact absurd (congrArg Prod.fst h1) hk
      · exact ih h1

theorem findEntry_eq_none_iff {k : K} {t : List (K × List Nat)} :
    findEntry k t = none ↔ ∀ v, (k, v) ∉ t := by
  constructor
  · intro h v hv
    have := mem_findEntry_isSome hv
    rw [h] at this
    simp at this
  · intro h
    cases hf : findEntry k t with
    | none => rfl
    | some v => exact absurd (findEntry_mem hf) (h v)

theorem findEntry_nodup_eq {k : K} {v : List Nat} :
    ∀ {t : List (K × List Nat)}, (t.map Prod.fst).Nodup → (k, v) ∈ t →
      findEntry k t = some v := by
  intro t
  induction t with
  | nil => intro _ hm; simp at hm
  | cons p rest ih =>
    obtain ⟨pk, pv⟩ := p
    intro hnd hm
    simp only [List.map_cons, List.nodup_cons] at hnd
    simp only [findEntry]
    rcases List.mem_cons.mp hm with h1 | h1
    · rw [if_pos (congrArg Prod.fst h1)]
      rw [(Prod.mk.injEq _ _ _ _).mp h1 |>.2]
    · have hk : k ≠ pk := by
        intro hk
        apply hnd.1
        rw [← hk]
        exact List.mem_map_of_mem Prod.fst h1
      rw [if_neg hk]
      exact ih hnd.2 h1

theorem removeKey_sublist (k : K) :
    ∀ t : List (K × List Nat), (removeKey k t).Sublist t := by
  intro t
  induction t with
  | nil => simp [removeKey]
  | cons p rest ih =>
    obtain ⟨pk, pv⟩ := p
    simp only [removeKey]
    by_cases hk : k = pk
    · rw [if_pos hk]
      exact List.sublist_cons_self _ rest
    · rw [if_neg hk]
      exact List.Sublist.cons₂ _ ih

theorem removeKey_length_lt {k : K} :
    ∀ {t : List (K × List Nat)}, (findEntry k t).isSome = true →
      (removeKey k t).length < t.length := by
  intro t
  induction t with
  | nil => intro h; simp [findEntry] at h
  | cons p rest ih =>
    obtain ⟨pk, pv⟩ := p
    intro h
    simp only [findEntry] at h
    simp only [removeKey]
    by_cases hk : k = pk
    · rw [if_pos hk]
      simp
    · rw [if_neg hk] at h ⊢
      simpa using ih h

theorem findEntry_removeKey_ne {k k2 : K} (hne : k ≠ k2) :
    ∀ t : List (K × List Nat), findEntry k (removeKey k2 t) = findEntry k t := by
  intro t
  induction t with
  | nil => simp [removeKey]
  | cons p rest ih =>
    obtain ⟨pk, pv⟩ := p
    simp only [removeKey]
    by_cases h2 : k2 = pk
    · rw [if_pos h2]
      have hk : k ≠ pk := fun hk => hne (hk.trans h2.symm)
      simp only [findEntry]
      rw [if_neg hk]
    · rw [if_neg h2]
      simp only [findEntry]
      by_cases hk : k = pk
      · rw [if_pos hk, if_pos hk]
      · rw [if_neg hk, if_neg hk]
        exact ih

theorem findEntry_removeKey_self {k : K} :
    ∀ {t : List (K × List Nat)}, (t.map Prod.fst).Nodup →
      findEntry k (removeKey k t) = none := by
  intro t
  induction t with
  | nil => intro _; simp [removeKey, findEntry]
  | cons p rest ih =>
    obtain ⟨pk, pv⟩ := p
    intro hnd
    simp only [List.map_cons, List.nodup_cons] at hnd
    simp only [removeKey]
    by_cases hk : k = pk
    · rw [if_pos hk]
      rw [findEntry_eq_none_iff]
      intro v hv
      apply hnd.1
      rw [← hk]
      exact List.mem_map_of_mem Prod.fst hv
    · rw [if_neg hk]
      simp only [findEntry]
      rw [if_neg hk]
      exact ih hnd.2

theorem removeKey_of_absent {k : K} :
    ∀ {t : List (K × List Nat)}, findEntry k t = none → removeKey k t = t := by
  intro t
  induction t with
  | nil => intro _; rfl
  | cons p rest ih =>
    obtain ⟨pk, pv⟩ := p
    intro h
    simp only [findEntry] at h
    simp only [removeKey]
    by_cases hk : k = pk
    · rw [if_pos hk] at h
      simp at h
    · rw [if_neg hk] at h
      rw [if_neg hk, ih h]

theorem sumLens_removeKey {k : K} {bs : List Nat} :
    ∀ {t : List (K × List Nat)}, findEntry k t = some bs →
      sumLens (removeKey k t) = sumLens t - (bs.length : Int) := by
  intro t
  induction t with
  | nil => intro h; simp [findEntry] at h
  | cons p rest ih =>
    obtain ⟨pk, pv⟩ := p
    intro h
    simp only [findEntry] at h
    simp only [removeKey]
    by_cases hk : k = pk
    · rw [if_pos hk] at h ⊢
      have : pv = bs := Option.some_inj.mp h
      simp [sumLens, this]
    · rw [if_neg hk] at h ⊢
      simp only [sumLens, List.map_cons, List.sum_cons] at ih ⊢
      rw [ih h]
      ring

theorem sumLens_nonneg : ∀ t : List (K × List Nat), (0 : Int) ≤ sumLens t := by
  intro t
  induction t with
  | nil => simp [sumLens]
  | cons p rest ih =>
    simp only [sumLens, List.map_cons, List.sum_cons] at ih ⊢
    have : (0 : Int) ≤ (p.2.length : Int) := Int.ofNat_nonneg _
    omega

theorem findEntry_le_sumLens {k : K} {bs : List Nat} :
    ∀ {t : List (K × List Nat)}, findEntry k t = some bs →
      (bs.length : Int) ≤ sumLens t := by
  intro t
  induction t with
  | nil => intro h; simp [findEntry] at h
  | cons p rest ih =>
    obtain ⟨pk, pv⟩ := p
    intro h
    simp only [findEntry] at h
    by_cases hk : k = pk
    · rw [if_pos hk] at h
      have : pv = bs := Option.some_inj.mp h
      simp only [sumLens, List.map_cons, List.sum_cons, this]
      have := sumLens_nonneg rest
      simp only [sumLens] at this
      omega
    · rw [if_neg hk] at h
      have h2 := ih h
      simp only [sumLens, List.map_cons, List.sum_cons] at h2 ⊢
      have : (0 : Int) ≤ (pv.length : Int) := Int.ofNat_nonneg _
      omega

theorem hasKey_mono {s2 s : CacheState K} (hsub : s2.table.Sublist s.table)
    {k : K} (h : hasKey s2 k = true) : hasKey s k = true := by
  rw [hasKey, Option.isSome_iff_exists] at h
  obtain ⟨v, hv⟩ := h
  exact mem_findEntry_isSome (hsub.mem (findEntry_mem hv))

theorem hasKey_anti_none {s2 s : CacheState K} (hsub : s2.table.Sublist s.table)
    {k : K} (h : findEntry k s.table = none) : findEntry k s2.table = none := by
  rw [findEntry_eq_none_iff] at h ⊢
  intro v hv
  exact h v (hsub.mem hv)

end TableLemmas

/-! ### Lemmas about recursive invalidation -/

section InvalidationLemmas

variable {K : Type} [DecidableEq K]

theorem invalidateDepsAux_sublist {deps : K → List K}
    {inv : CacheState K → K → Option (CacheState K × Bool)}
    (hinv : ∀ s k s2 b, inv s k = some (s2, b) → s2.table.Sublist s.table) :
    ∀ {snap : List K} {s : CacheState K} {key : K} {s2 : CacheState K},
      invalidateDepsAux deps inv snap s key = some s2 →
        s2.table.Sublist s.table := by
  intro snap
  induction snap with
  | nil =>
    intro s key s2 h
    simp only [invalidateDepsAux, Option.some_inj] at h
    rw [← h]
  | cons k2 rest ih =>
    intro s key s2 h
    simp only [invalidateDepsAux] at h
    by_cases hd : key ∈ deps k2
    · rw [if_pos hd] at h
      cases hi : inv s k2 with
      | none => rw [hi] at h; exact absurd h (by simp)
      | some p =>
        obtain ⟨s3, b⟩ := p
        rw [hi] at h
        exact (ih h).trans (hinv _ _ _ _ hi)
    · rw [if_neg hd] at h
      exact ih h

theorem invalidateOpt_sublist {deps : K → List K} :
    ∀ {fuel : Nat} {s : CacheState K} {key : K} {recursive : Bool}
      {s2 : CacheState K} {b : Bool},
      invalidateOpt deps fuel s key recursive = some (s2, b) →
        s2.table.Sublist s.table := by
  intro fuel
  induction fuel with
  | zero =>
    intro s key r s2 b h
    simp [invalidateOpt] at h
  | succ fuel ih =>
    intro s key r s2 b h
    simp only [invalidateOpt] at h
    cases hf : findEntry key s.table with
    | none =>
      rw [hf] at h
      simp only [Option.some_inj, Prod.mk.injEq] at h
      rw [← h.1]
    | some bs =>
      rw [hf] at h
      dsimp only at h
      cases r with
      | false =>
        simp only [Option.some_inj, Prod.mk.injEq] at h
        rw [← h.1]
        exact removeKey_sublist key s.table
      | true =>
        cases ha : invalidateDepsAux deps
            (fun s3 k2 => invalidateOpt deps fuel s3 k2 true)
            ((removeKey key s.table).map Prod.fst)
            ⟨removeKey key s.table, s.cacheSize - (bs.length : Int)⟩ key with
        | none => rw [ha] at h; exact absurd h (by simp)
        | some s3 =>
          rw [ha] at h
          simp only [Option.some_inj, Prod.mk.injEq] at h
          rw [← h.1]
          have hsub := invalidateDepsAux_sublist
            (fun s4 k2 s5 b2 h2 => ih h2) ha
          exact hsub.trans (removeKey_sublist key s.table)

theorem invalidateOpt_false {deps : K → List K} {fuel : Nat} {s : CacheState K}
    {key : K} {recursive : Bool} {s2 : CacheState K}
    (h : invalidateOpt deps fuel s key recursive = some (s2, false)) :
    s2 = s ∧ findEntry key s.table = none := by
  cases fuel with
  | zero => simp [invalidateOpt] at h
  | succ fuel =>
    simp only [invalidateOpt] at h
    cases hf : findEntry key s.table with
    | none =>
      rw [hf] at h
      simp only [Option.some_inj, Prod.mk.injEq] at h
      exact ⟨h.1.symm, rfl⟩
    | some bs =>
      rw [hf] at h
      dsimp only at h
      cases recursive with
      | false => simp at h
      | true =>
        cases ha : invalidateDepsAux deps
            (fun s3 k2 => invalidateOpt deps fuel s3 k2 true)
            ((removeKey key s.table).map Prod.fst)
            ⟨removeKey key s.table, s.cacheSize - (bs.length : Int)⟩ key with
        | none => rw [ha] at h; simp at h
        | some s3 => rw [ha] at h; simp at h

theorem invalidateOpt_absent {deps : K → List K} {fuel : Nat} {s : CacheState K}
    {key : K} {recursive : Bool} (hf : findEntry key s.table = none) :
    invalidateOpt deps (fuel + 1) s key recursive = some (s, false) := by
  simp only [invalidateOpt, hf]

theorem invalidateDepsAux_isSome {deps : K → List K} {n : Nat}
    {inv : CacheState K → K → Option (CacheState K × Bool)}
    (hsub : ∀ s k s2 b, inv s k = some (s2, b) → s2.table.Sublist s.table)
    (hsome : ∀ s k, s.table.length < n → (inv s k).isSome = true) :
    ∀ {snap : List K} {s : CacheState K} {key : K}, s.table.length < n →
      (invalidateDepsAux deps inv snap s key).isSome = true := by
  intro snap
  induction snap with
  | nil => intro s key _; simp [invalidateDepsAux]
  | cons k2 rest ih =>
    intro s key hlen
    simp only [invalidateDepsAux]
    by_cases hd : key ∈ deps k2
    · rw [if_pos hd]
      obtain ⟨p, hp⟩ := Option.isSome_iff_exists.mp (hsome s k2 hlen)
      obtain ⟨s3, b⟩ := p
      rw [hp]
      have hlen3 : s3.table.length < n :=
        Nat.lt_of_le_of_lt (List.Sublist.length_le (hsub _ _ _ _ hp)) hlen
      exact ih hlen3
    · rw [if_neg hd]
      exact ih hlen

theorem invalidateOpt_isSome {deps : K → List K} :
    ∀ {fuel : Nat} {s : CacheState K} {key : K} {recursive : Bool},
      s.table.length < fuel →
      (invalidateOpt deps fuel s key recursive).isSome = true := by
  intro fuel
  induction fuel with
  | zero => intro s key r h; exact absurd h (Nat.not_lt_zero _)
  | succ fuel ih =>
    intro s key r hlen
    simp only [invalidateOpt]
    cases hf : findEntry key s.table with
    | none => rfl
    | some bs =>
      dsimp only
      cases r with
      | false => rfl
      | true =>
        have hlt : (removeKey key s.table).length < fuel := by
          have h1 : (removeKey key s.table).length < s.table.length :=
            removeKey_length_lt (by rw [hf]; rfl)
          omega
        have haux := @invalidateDepsAux_isSome K _ deps fuel
          (fun s3 k2 => invalidateOpt deps fuel s3 k2 true)
          (fun s3 k2 s4 b h2 => invalidateOpt_sublist h2)
          (fun s3 k2 h2 => ih h2)
          ((removeKey key s.table).map Prod.fst)
          ⟨removeKey key s.table, s.cacheSize - (bs.length : Int)⟩
          key hlt
        obtain ⟨s3, ha⟩ := Option.isSome_iff_exists.mp haux
        rw [ha]
        rfl

theorem invalidateDepsAux_size {deps : K → List K}
    {inv : CacheState K → K → Option (CacheState K × Bool)}
    (hinv : ∀ s k s2 b, inv s k = some (s2, b) → sizeInv s → sizeInv s2) :
    ∀ {snap : List K} {s : CacheState K} {key : K} {s2 : CacheState K},
      invalidateDepsAux deps inv snap s key = some s2 → sizeInv s → sizeInv s2 := by
  intro snap
  induction snap with
  | nil =>
    intro s key s2 h hs
    simp only [invalidateDepsAux, Option.some_inj] at h
    rw [← h]
    exact hs
  | cons k2 rest ih =>
    intro s key s2 h hs
    simp only [invalidateDepsAux] at h
    by_cases hd : key ∈ deps k2
    · rw [if_pos hd] at h
      cases hi : inv s k2 with
      | none => rw [hi] at h; exact absurd h (by simp)
      | some p =>
        obtain ⟨s3, b⟩ := p
        rw [hi] at h
        exact ih h (hinv _ _ _ _ hi hs)
    · rw [if_neg hd] at h
      exact ih h hs

theorem invalidateOpt_size {deps : K → List K} :
    ∀ {fuel : Nat} {s : CacheState K} {key : K} {recursive : Bool}
      {s2 : CacheState K} {b : Bool},
      invalidateOpt deps fuel s key recursive = some (s2, b) →
        sizeInv s → sizeInv s2 := by
  intro fuel
  induction fuel with
  | zero => intro s key r s2 b h _; simp [invalidateOpt] at h
  | succ fuel ih =>
    intro s key r s2 b h hs
    simp only [invalidateOpt] at h
    cases hf : findEntry key s.table with
    | none =>
      rw [hf] at h
      simp only [Option.some_inj, Prod.mk.injEq] at h
      rw [← h.1]
      exact hs
    | some bs =>
      rw [hf] at h
      dsimp only at h
      have hs1 : sizeInv (⟨removeKey key s.table,
          s.cacheSize - (bs.length : Int)⟩ : CacheState K) := by
        rw [sizeInv]
        rw [sumLens_removeKey hf]
        rw [sizeInv] at hs
        rw [hs]
      cases r with
      | false =>
        simp only [Option.some_inj, Prod.mk.injEq] at h
        rw [← h.1]
        exact hs1
      | true =>
        cases ha : invalidateDepsAux deps
            (fun s3 k2 => invalidateOpt deps fuel s3 k2 true)
            ((removeKey key s.table).map Prod.fst)
            ⟨removeKey key s.table, s.cacheSize - (bs.length : Int)⟩ key with
        | none => rw [ha] at h; simp at h
        | some s3 =>
          rw [ha] at h
          simp only [Option.some_inj, Prod.mk.injEq] at h
          rw [← h.1]
          exact invalidateDepsAux_size (fun s4 k2 s5 b2 h2 => ih h2) ha hs1

theorem nodup_table_sublist {s2 s : CacheState K} (hsub : s2.table.Sublist s.table)
    (hnd : (s.table.map Prod.fst).Nodup) : (s2.table.map Prod.fst).Nodup :=
  List.Nodup.sublist (List.Sublist.map Prod.fst hsub) hnd

theorem mem_keys_hasKey {s : CacheState K} {k : K}
    (h : k ∈ s.table.map Prod.fst) : hasKey s k = true := by
  obtain ⟨p, hp, hpk⟩ := List.mem_map.mp h
  obtain ⟨pk, pv⟩ := p
  rw [hasKey]
  exact mem_findEntry_isSome (by rw [show pk = k from hpk] at hp; exact hp)

theorem hasKey_mem_keys {s : CacheState K} {k : K}
    (h : hasKey s k = true) : k ∈ s.table.map Prod.fst := by
  rw [hasKey, Option.isSome_iff_exists] at h
  obtain ⟨v, hv⟩ := h
  exact List.mem_map_of_mem Prod.fst (findEntry_mem hv)

theorem invalidateDepsAux_spec {deps : K → List K}
    {inv : CacheState K → K → Option (CacheState K × Bool)}
    (hsub : ∀ s k s2 b, inv s k = some (s2, b) → s2.table.Sublist s.table)
    (hfalse : ∀ s k s2, inv s k = some (s2, false) →
      s2 = s ∧ findEntry k s.table = none)
    (hspec : ∀ s k s2, (s.table.map Prod.fst).Nodup → inv s k = some (s2, true) →
      hasKey s2 k = false ∧ (∀ k2, hasKey s2 k2 = true → k ∉ deps k2) ∧
      (∀ k2 d, hasKey s2 k2 = true → d ∈ deps k2 → hasKey s d = true →
        hasKey s2 d = true)) :
    ∀ {snap : List K} {s : CacheState K} {key : K} {s2 : CacheState K},
      (s.table.map Prod.fst).Nodup →
      invalidateDepsAux deps inv snap s key = some s2 →
      (∀ k2 d, hasKey s2 k2 = true → d ∈ deps k2 → hasKey s d = true →
        hasKey s2 d = true) ∧
      ((∀ k2, hasKey s k2 = true → key ∈ deps k2 → k2 ∈ snap) →
        ∀ k2, hasKey s2 k2 = true → key ∉ deps k2) := by
  intro snap
  induction snap with
  | nil =>
    intro s key s2 hnd h
    simp only [invalidateDepsAux, Option.some_inj] at h
    subst h
    constructor
    · intro k2 d _ _ hd; exact hd
    · intro hcov k2 hk2 hdep
      exact absurd (hcov k2 hk2 hdep) (List.not_mem_nil k2)
  | cons k2 rest ih =>
    intro s key s2 hnd h
    simp only [invalidateDepsAux] at h
    by_cases hd : key ∈ deps k2
    · rw [if_pos hd] at h
      cases hi : inv s k2 with
      | none => rw [hi] at h; exact absurd h (by simp)
      | some p =>
        obtain ⟨s3, b⟩ := p
        rw [hi] at h
        cases b with
        | true =>
          obtain ⟨hb1, hb2, hb3⟩ := hspec s k2 s3 hnd hi
          have hsub3 : s3.table.Sublist s.table := hsub _ _ _ _ hi
          have hnd3 := nodup_table_sublist hsub3 hnd
          obtain ⟨ih1, ih2⟩ := ih hnd3 h
          have hsubR : s2.table.Sublist s3.table :=
            invalidateDepsAux_sublist hsub h
          constructor
          · intro a d2 ha hd2 hds
            have ha3 : hasKey s3 a = true := hasKey_mono hsubR ha
            exact ih1 a d2 ha hd2 (hb3 a d2 ha3 hd2 hds)
          · intro hcov
            apply ih2
            intro a ha3 hda
            have haS : hasKey s a = true := hasKey_mono hsub3 ha3
            rcases List.mem_cons.mp (hcov a haS hda) with h1 | h1
            · rw [h1] at ha3
              rw [hb1] at ha3
              exact absurd ha3 (by simp)
            · exact h1
        | false =>
          obtain ⟨rfl, habs⟩ := hfalse s k2 s3 hi
          obtain ⟨ih1, ih2⟩ := ih hnd h
          refine ⟨ih1, ?_⟩
          intro hcov
          apply ih2
          intro a ha hda
          rcases List.mem_cons.mp (hcov a ha hda) with h1 | h1
          · rw [h1, hasKey, habs] at ha
            exact absurd ha (by simp)
          · exact h1
    · rw [if_neg hd] at h
      obtain ⟨ih1, ih2⟩ := ih hnd h
      refine ⟨ih1, ?_⟩
      intro hcov
      apply ih2
      intro a ha hda
      rcases List.mem_cons.mp (hcov a ha hda) with h1 | h1
      · rw [h1] at hda
        exact absurd hda hd
      · exact h1

theorem invalidateOpt_true_spec {deps : K → List K} :
    ∀ {fuel : Nat} {s : CacheState K} {key : K} {s2 : CacheState K},
      (s.table.map Prod.fst).Nodup →
      invalidateOpt deps fuel s key true = some (s2, true) →
      hasKey s2 key = false ∧
      (∀ k, hasKey s2 k = true → key ∉ deps k) ∧
      (∀ k d, hasKey s2 k = true → d ∈ deps k → hasKey s d = true →
        hasKey s2 d = true) := by
  intro fuel
  induction fuel with
  | zero => intro s key s2 _ h; simp [invalidateOpt] at h
  | succ fuel ih =>
    intro s key s2 hnd h
    simp only [invalidateOpt] at h
    cases hf : findEntry key s.table with
    | none =>
      rw [hf] at h
      simp at h
    | some bs =>
      rw [hf] at h
      dsimp only at h
      cases ha : invalidateDepsAux deps
          (fun s3 k2 => invalidateOpt deps fuel s3 k2 true)
          ((removeKey key s.table).map Prod.fst)
          ⟨removeKey key s.table, s.cacheSize - (bs.length : Int)⟩ key with
      | none => rw [ha] at h; simp at h
      | some s3 =>
        rw [ha] at h
        simp only [Option.some_inj, Prod.mk.injEq] at h
        obtain ⟨h1, -⟩ := h
        subst h1
        have hnd1 : ((removeKey key s.table).map Prod.fst).Nodup :=
          List.Nodup.sublist (List.Sublist.map Prod.fst (removeKey_sublist key s.table)) hnd
        have hauxsub : s3.table.Sublist (removeKey key s.table) :=
          invalidateDepsAux_sublist (fun s4 k2 s5 b2 h2 => invalidateOpt_sublist h2) ha
        obtain ⟨spre, scov⟩ := invalidateDepsAux_spec
          (fun s4 k2 s5 b2 h2 => invalidateOpt_sublist h2)
          (fun s4 k2 s5 h2 => invalidateOpt_false h2)
          (fun s4 k2 s5 hnd4 h2 => ih hnd4 h2)
          (s := ⟨removeKey key s.table, s.cacheSize - (bs.length : Int)⟩)
          hnd1 ha
        have hclean : ∀ k, hasKey s3 k = true → key ∉ deps k := by
          apply scov
          intro k2 hk2 _
          exact hasKey_mem_keys hk2
        refine ⟨?_, hclean, ?_⟩
        · cases hc : hasKey s3 key with
          | false => rfl
          | true =>
            have h1 : hasKey (⟨removeKey key s.table,
                s.cacheSize - (bs.length : Int)⟩ : CacheState K) key = true :=
              hasKey_mono hauxsub hc
            rw [hasKey, findEntry_removeKey_self hnd] at h1
            exact absurd h1 (by simp)
        · intro k d hk hd2 hds
          by_cases hdk : d = key
          · rw [hdk] at hd2
            exact absurd hd2 (hclean k hk)
          · have hds1 : hasKey (⟨removeKey key s.table,
                s.cacheSize - (bs.length : Int)⟩ : CacheState K) d = true := by
              rw [hasKey]
              rw [findEntry_removeKey_ne hdk]
              exact hds
            exact spre k d hk hd2 hds1

end InvalidationLemmas

/-! ### The public Invalidate operation -/

section PublicInvalidate

variable {K : Type} [DecidableEq K]

theorem invalidateOpt_full {deps : K → List K} {s : CacheState K} {key : K}
    {recursive : Bool} :
    invalidateOpt deps (s.table.length + 1) s key recursive =
      some (Invalidate deps s key recursive) := by
  have h : (invalidateOpt deps (s.table.length + 1) s key recursive).isSome = true :=
    invalidateOpt_isSome (Nat.lt_succ_self _)
  obtain ⟨p, hp⟩ := Option.isSome_iff_exists.mp h
  rw [hp, Invalidate, hp, Option.getD_some]

theorem Invalidate_absent {deps : K → List K} {s : CacheState K} {key : K}
    {recursive : Bool} (hf : findEntry key s.table = none) :
    Invalidate deps s key recursive = (s, false) := by
  rw [Invalidate, invalidateOpt_absent hf, Option.getD_some]

theorem Invalidate_nonrec {deps : K → List K} {s : CacheState K} {key : K}
    {bs : List Nat} (hf : findEntry key s.table = some bs) :
    Invalidate deps s key false =
      (⟨removeKey key s.table, s.cacheSize - (bs.length : Int)⟩, true) := by
  rw [Invalidate]
  simp only [invalidateOpt, hf]
  rfl

theorem Invalidate_snd {deps : K → List K} {s : CacheState K} {key : K}
    {recursive : Bool} : (Invalidate deps s key recursive).2 = hasKey s key := by
  cases hfe : findEntry key s.table with
  | none =>
    rw [Invalidate_absent hfe, hasKey, hfe]
    rfl
  | some bs =>
    have hk : hasKey s key = true := by rw [hasKey, hfe]; rfl
    rw [hk]
    have hfull : invalidateOpt deps (s.table.length + 1) s key recursive =
        some (Invalidate deps s key recursive) := invalidateOpt_full
    cases hb : (Invalidate deps s key recursive).2 with
    | true => rfl
    | false =>
      have h2 : invalidateOpt deps (s.table.length + 1) s key recursive =
          some ((Invalidate deps s key recursive).1, false) := by
        rw [hfull, ← hb]
      obtain ⟨-, habs⟩ := invalidateOpt_false h2
      rw [habs] at hfe
      exact absurd hfe (by simp)

theorem Invalidate_sublist {deps : K → List K} {s : CacheState K} {key : K}
    {recursive : Bool} :
    (Invalidate deps s key recursive).1.table.Sublist s.table := by
  have hfull : invalidateOpt deps (s.table.length + 1) s key recursive =
      some (Invalidate deps s key recursive) := invalidateOpt_full
  exact invalidateOpt_sublist hfull

theorem Invalidate_size {deps : K → List K} {s : CacheState K} {key : K}
    {recursive : Bool} (hs : sizeInv s) :
    sizeInv (Invalidate deps s key recursive).1 := by
  have hfull : invalidateOpt deps (s.table.length + 1) s key recursive =
      some (Invalidate deps s key recursive) := invalidateOpt_full
  exact invalidateOpt_size hfull hs

theorem Invalidate_true_spec {deps : K → List K} {s : CacheState K} {key : K}
    (hnd : (s.table.map Prod.fst).Nodup) (hk : hasKey s key = true) :
    hasKey (Invalidate deps s key true).1 key = false ∧
    (∀ k, hasKey (Invalidate deps s key true).1 k = true → key ∉ deps k) ∧
    (∀ k d, hasKey (Invalidate deps s key true).1 k = true → d ∈ deps k →
      hasKey s d = true → hasKey (Invalidate deps s key true).1 d = true) := by
  have hfull : invalidateOpt deps (s.table.length + 1) s key true =
      some (Invalidate deps s key true) := invalidateOpt_full
  have hb : (Invalidate deps s key true).2 = true := by
    rw [Invalidate_snd, hk]
  rcases hP : Invalidate deps s key true with ⟨s2, b⟩
  rw [hP] at hfull hb
  replace hb : b = true := hb
  subst hb
  exact invalidateOpt_true_spec hnd hfull

theorem Invalidate_key_absent {deps : K → List K} {s : CacheState K} {key : K}
    {recursive : Bool} (hnd : (s.table.map Prod.fst).Nodup) :
    hasKey (Invalidate deps s key recursive).1 key = false := by
  cases hfe : findEntry key s.table with
  | none =>
    rw [Invalidate_absent hfe, hasKey, hfe]
    rfl
  | some bs =>
    have hk : hasKey s key = true := by rw [hasKey, hfe]; rfl
    cases recursive with
    | true => exact (Invalidate_true_spec hnd hk).1
    | false =>
      rw [Invalidate_nonrec hfe, hasKey]
      rw [findEntry_removeKey_self hnd]
      rfl

theorem DependsOn.mem_ks {deps : K → List K} {ks : List K} {key k : K}
    (h : DependsOn deps ks key k) : k ∈ ks := by
  cases h with
  | direct _ hk => exact hk
  | tail _ _ hk => exact hk

theorem dependsOn_removed {deps : K → List K} {s : CacheState K} {key : K}
    (hnd : (s.table.map Prod.fst).Nodup) (hk : hasKey s key = true) :
    ∀ k, DependsOn deps (s.table.map Prod.fst) key k →
      hasKey (Invalidate deps s key true).1 k = false := by
  have hspec : hasKey (Invalidate deps s key true).1 key = false ∧
      (∀ k, hasKey (Invalidate deps s key true).1 k = true → key ∉ deps k) ∧
      (∀ k d, hasKey (Invalidate deps s key true).1 k = true → d ∈ deps k →
        hasKey s d = true → hasKey (Invalidate deps s key true).1 d = true) :=
    Invalidate_true_spec hnd hk
  obtain ⟨hb1, hb2, hb3⟩ := hspec
  intro k hdep
  induction hdep with
  | direct hmem _ =>
    cases hc : hasKey (Invalidate deps s key true).1 _ with
    | false => rfl
    | true => exact absurd hmem (hb2 _ hc)
  | tail hdm hmd _ ihm =>
    cases hc : hasKey (Invalidate deps s key true).1 _ with
    | false => rfl
    | true =>
      have hmS : hasKey s _ = true := mem_keys_hasKey hdm.mem_ks
      have := hb3 _ _ hc hmd hmS
      rw [ihm] at this
      exact absurd this (by simp)

theorem Invalidate_other {deps : K → List K} {s : CacheState K} {f k2 : K}
    (hne : k2 ≠ f) :
    findEntry k2 (Invalidate deps s f false).1.table = findEntry k2 s.table := by
  cases hf : findEntry f s.table with
  | none => rw [Invalidate_absent hf]
  | some bs =>
    rw [Invalidate_nonrec hf]
    exact findEntry_removeKey_ne hne s.table

theorem Invalidate_nonrec_nodup {deps : K → List K} {s : CacheState K} {f : K}
    (hnd : (s.table.map Prod.fst).Nodup) :
    ((Invalidate deps s f false).1.table.map Prod.fst).Nodup :=
  List.Nodup.sublist (List.Sublist.map Prod.fst Invalidate_sublist) hnd

end PublicInvalidate

/-! ### Lemmas about GetCacheEntry and operation sequences -/

section GetLemmas

variable {K : Type} [DecidableEq K]

theorem GetCacheEntry_hit {fetch : K → FetchRes} {s : CacheState K} {k : K}
    {bs : List Nat} (hf : findEntry k s.table = some bs) :
    GetCacheEntry fetch s k = (FetchRes.ok bs, s, false) := by
  simp only [GetCacheEntry, hf]

theorem GetCacheEntry_miss_ok {fetch : K → FetchRes} {s : CacheState K} {k : K}
    {bs : List Nat} (hf : findEntry k s.table = none)
    (hfe : fetch k = FetchRes.ok bs) :
    GetCacheEntry fetch s k = (FetchRes.ok bs,
      ⟨(k, bs) :: s.table, s.cacheSize + (bs.length : Int)⟩, true) := by
  simp only [GetCacheEntry, hf, hfe]

theorem GetCacheEntry_miss_err {fetch : K → FetchRes} {s : CacheState K} {k : K}
    {e : Nat} (hf : findEntry k s.table = none)
    (hfe : fetch k = FetchRes.error e) :
    GetCacheEntry fetch s k = (FetchRes.error e, s, true) := by
  simp only [GetCacheEntry, hf, hfe]

theorem GetCacheEntry_size {fetch : K → FetchRes} {s : CacheState K} {k : K}
    (hs : sizeInv s) : sizeInv (GetCacheEntry fetch s k).2.1 := by
  cases hf : findEntry k s.table with
  | some bs => rw [GetCacheEntry_hit hf]; exact hs
  | none =>
    cases hfe : fetch k with
    | ok bs =>
      rw [GetCacheEntry_miss_ok hf hfe]
      rw [sizeInv] at hs ⊢
      simp only [sumLens, List.map_cons, List.sum_cons] at hs ⊢
      omega
    | error e => rw [GetCacheEntry_miss_err hf hfe]; exact hs

theorem GetCacheEntry_nodup {fetch : K → FetchRes} {s : CacheState K} {k : K}
    (hnd : (s.table.map Prod.fst).Nodup) :
    (((GetCacheEntry fetch s k).2.1.table).map Prod.fst).Nodup := by
  cases hf : findEntry k s.table with
  | some bs => rw [GetCacheEntry_hit hf]; exact hnd
  | none =>
    cases hfe : fetch k with
    | ok bs =>
      rw [GetCacheEntry_miss_ok hf hfe]
      simp only [List.map_cons, List.nodup_cons]
      constructor
      · intro hmem
        have := mem_keys_hasKey (s := s) hmem
        rw [hasKey, hf] at this
        exact absurd this (by simp)
      · exact hnd
    | error e => rw [GetCacheEntry_miss_err hf hfe]; exact hnd

theorem GetCacheEntry_other {fetch : K → FetchRes} {s : CacheState K} {k j : K}
    (hne : j ≠ k) :
    findEntry j (GetCacheEntry fetch s k).2.1.table = findEntry j s.table := by
  cases hf : findEntry k s.table with
  | some bs => rw [GetCacheEntry_hit hf]
  | none =>
    cases hfe : fetch k with
    | ok bs =>
      rw [GetCacheEntry_miss_ok hf hfe]
      simp only [findEntry]
      rw [if_neg hne]
    | error e => rw [GetCacheEntry_miss_err hf hfe]

theorem execOps_size {deps : K → List K} :
    ∀ {ops : List (CacheOp K)} {s : CacheState K}, sizeInv s →
      sizeInv (execOps deps s ops) := by
  intro ops
  induction ops with
  | nil => intro s hs; exact hs
  | cons op rest ih =>
    intro s hs
    show sizeInv (execOps deps (execOp deps s op) rest)
    apply ih
    cases op with
    | get f k => exact GetCacheEntry_size hs
    | inval k r => exact Invalidate_size hs

end GetLemmas

/-! ### Lemmas about the LRU decorator -/

section LruLemmas

variable {K : Type} [DecidableEq K]

theorem lruInvalidate_absent {deps : K → List K} {l : LruState K} {k : K}
    {recursive : Bool} (hf : findEntry k l.cache.table = none) :
    lruInvalidate deps l k recursive = some (l, false) := by
  simp only [lruInvalidate, Invalidate_absent hf, Bool.false_eq_true, if_false]

theorem removeFromOrder_sublist (k : K) :
    ∀ ord : List K, (removeFromOrder k ord).Sublist ord := by
  intro ord
  induction ord with
  | nil => simp [removeFromOrder]
  | cons a rest ih =>
    simp only [removeFromOrder]
    by_cases hk : k = a
    · rw [if_pos hk]
      exact List.sublist_cons_self _ rest
    · rw [if_neg hk]
      exact List.Sublist.cons₂ _ ih

theorem not_mem_removeFromOrder {k k2 : K} {ord : List K} (h : k ∉ ord) :
    k ∉ removeFromOrder k2 ord :=
  fun hm => h ((removeFromOrder_sublist k2 ord).mem hm)

theorem evict_succ {deps : K → List K} {max : Int} {fuel : Nat}
    {c : CacheState K} {ord : List K} :
    evict deps max (fuel + 1) c ord =
      if c.cacheSize > max then
        match ord with
        | [] => none
        | f :: rest => evict deps max fuel (Invalidate deps c f false).1 rest
      else some (c, ord) := rfl

theorem evict_preserve {deps : K → List K} {max : Int} {k : K} {bs : List Nat} :
    ∀ {fuel : Nat} {c : CacheState K} {ord : List K} {ev : CacheState K × List K},
      evict deps max fuel c ord = some ev →
      findEntry k c.table = some bs → k ∉ ord →
      findEntry k ev.1.table = some bs ∧ k ∉ ev.2 := by
  intro fuel
  induction fuel with
  | zero => intro c ord ev hev _ _; simp [evict] at hev
  | succ fuel ih =>
    intro c ord ev hev hf hko
    rw [evict_succ] at hev
    by_cases hgt : c.cacheSize > max
    · rw [if_pos hgt] at hev
      cases ord with
      | nil => simp at hev
      | cons f rest =>
        have hne : k ≠ f := fun h => hko (h ▸ List.mem_cons_self f rest)
        have hko2 : k ∉ rest := fun h => hko (List.mem_cons_of_mem f h)
        have hf2 : findEntry k (Invalidate deps c f false).1.table = some bs := by
          rw [Invalidate_other hne]
          exact hf
        exact ih hev hf2 hko2
    · rw [if_neg hgt] at hev
      rw [← Option.some_inj.mp hev]
      exact ⟨hf, hko⟩

theorem evict_removes_big {deps : K → List K} {max : Int} {k : K}
    {bs : List Nat} (hbig : (bs.length : Int) > max) (hmax : 0 ≤ max) :
    ∀ (ord2 : List K) (c : CacheState K), sizeInv c →
      (c.table.map Prod.fst).Nodup →
      (∀ j, hasKey c j = true → j ∈ ord2 ++ [k]) →
      findEntry k c.table = some bs → k ∉ ord2 →
      ∃ ev, evict deps max ((ord2 ++ [k]).length + 1) c (ord2 ++ [k]) = some ev ∧
        findEntry k ev.1.table = none ∧ k ∉ ev.2 := by
  intro ord2
  induction ord2 with
  | nil =>
    intro c hs hnd hcov hf _
    have hgt : c.cacheSize > max := by
      rw [sizeInv] at hs
      have := findEntry_le_sumLens hf
      omega
    have hc2 : Invalidate deps c k false =
        (⟨removeKey k c.table, c.cacheSize - (bs.length : Int)⟩, true) :=
      Invalidate_nonrec hf
    have htabnil : removeKey k c.table = [] := by
      rcases hrem : removeKey k c.table with _ | ⟨p, t⟩
      · rfl
      · exfalso
        have hmem : (p.1, p.2) ∈ removeKey k c.table := by
          rw [hrem]
          exact List.mem_cons_self _ _
        have hk2 : hasKey (⟨removeKey k c.table,
            c.cacheSize - (bs.length : Int)⟩ : CacheState K) p.1 = true :=
          mem_findEntry_isSome hmem
        have hkc : hasKey c p.1 = true :=
          hasKey_mono (removeKey_sublist k c.table) hk2
        have := hcov p.1 hkc
        simp only [List.nil_append, List.mem_singleton] at this
        rw [this, hasKey, findEntry_removeKey_self hnd] at hk2
        exact absurd hk2 (by simp)
    have hsize2 : c.cacheSize - (bs.length : Int) = 0 := by
      have hs2 : sizeInv (⟨removeKey k c.table,
          c.cacheSize - (bs.length : Int)⟩ : CacheState K) := by
        rw [sizeInv]
        rw [sumLens_removeKey hf]
        rw [sizeInv] at hs
        rw [hs]
      rw [sizeInv, htabnil] at hs2
      simpa [sumLens] using hs2
    refine ⟨(⟨removeKey k c.table, c.cacheSize - (bs.length : Int)⟩, []),
      ?_, findEntry_removeKey_self hnd, List.not_mem_nil k⟩
    rw [evict_succ, if_pos hgt]
    show evict deps max (0 + 1) (Invalidate deps c k false).1 [] = _
    rw [hc2, evict_succ, if_neg (by
      show ¬c.cacheSize - (bs.length : Int) > max
      omega)]
  | cons f ord2 ih =>
    intro c hs hnd hcov hf hko
    have hne : k ≠ f := fun h => hko (h ▸ List.mem_cons_self f ord2)
    have hko2 : k ∉ ord2 := fun h => hko (List.mem_cons_of_mem f h)
    have hgt : c.cacheSize > max := by
      rw [sizeInv] at hs
      have := findEntry_le_sumLens hf
      omega
    have hf2 : findEntry k (Invalidate deps c f false).1.table = some bs := by
      rw [Invalidate_other hne]
      exact hf
    have hcov2 : ∀ j, hasKey (Invalidate deps c f false).1 j = true →
        j ∈ ord2 ++ [k] := by
      intro j hj
      have hjc : hasKey c j = true :=
        hasKey_mono Invalidate_sublist hj
      have hmem := hcov j hjc
      rcases List.mem_cons.mp hmem with h1 | h1
      · rw [h1] at hj
        rw [Invalidate_key_absent hnd] at hj
        exact absurd hj (by simp)
      · exact h1
    obtain ⟨ev, hev, h1, h2⟩ := ih (Invalidate deps c f false).1
      (Invalidate_size hs) (Invalidate_nonrec_nodup hnd) hcov2 hf2 hko2
    refine ⟨ev, ?_, h1, h2⟩
    rw [show ((f :: ord2) ++ [k]).length + 1 = ((ord2 ++ [k]).length + 1) + 1
      from rfl]
    rw [evict_succ, if_pos hgt]
    exact hev

theorem lruGet_frame {deps : K → List K} {max : Int} {fetch : K → FetchRes}
    {l : LruState K} {k k2 : K} {bs : List Nat} {res : FetchRes × LruState K}
    (hne : k2 ≠ k) (hget : lruGet deps max fetch l k2 = some res)
    (hf : findEntry k l.cache.table = some bs) (hko : k ∉ l.order) :
    findEntry k res.2.cache.table = some bs ∧ k ∉ res.2.order := by
  have hneK : k ≠ k2 := fun h => hne h.symm
  have hother : findEntry k (GetCacheEntry fetch l.cache k2).2.1.table =
      findEntry k l.cache.table := GetCacheEntry_other hneK
  simp only [lruGet] at hget
  cases hr : (GetCacheEntry fetch l.cache k2).1 with
  | error e =>
    rw [hr] at hget
    replace hget := Option.some_inj.mp hget
    rw [← hget]
    constructor
    · rw [hother]
      exact hf
    · exact hko
  | ok bs2 =>
    rw [hr] at hget
    dsimp only at hget
    have hko1 : k ∉ (if k2 ∈ l.order then removeFromOrder k2 l.order ++ [k2]
        else l.order ++ [k2]) := by
      by_cases hm : k2 ∈ l.order
      · rw [if_pos hm]
        intro hmem
        rcases List.mem_append.mp hmem with h1 | h1
        · exact not_mem_removeFromOrder hko h1
        · exact hneK (List.mem_singleton.mp h1)
      · rw [if_neg hm]
        intro hmem
        rcases List.mem_append.mp hmem with h1 | h1
        · exact hko h1
        · exact hneK (List.mem_singleton.mp h1)
    have hf1 : findEntry k (GetCacheEntry fetch l.cache k2).2.1.table = some bs := by
      rw [hother]
      exact hf
    cases hev : evict deps max
        ((if k2 ∈ l.order then removeFromOrder k2 l.order ++ [k2]
          else l.order ++ [k2]).length + 1)
        (GetCacheEntry fetch l.cache k2).2.1
        (if k2 ∈ l.order then removeFromOrder k2 l.order ++ [k2]
          else l.order ++ [k2]) with
    | none => rw [hev] at hget; exact absurd hget (by simp)
    | some ev =>
      rw [hev] at hget
      replace hget := Option.some_inj.mp hget
      rw [← hget]
      exact evict_preserve hev hf1 hko1

theorem lruGetOps_frame {deps : K → List K} {max : Int} {k : K} {bs : List Nat} :
    ∀ {ops : List ((K → FetchRes) × K)} {l l2 : LruState K},
      (∀ op ∈ ops, op.2 ≠ k) →
      findEntry k l.cache.table = some bs → k ∉ l.order →
      lruGetOps deps max ops l = some l2 →
      findEntry k l2.cache.table = some bs ∧ k ∉ l2.order := by
  intro ops
  induction ops with
  | nil =>
    intro l l2 _ hf hko h
    simp only [lruGetOps, Option.some_inj] at h
    rw [← h]
    exact ⟨hf, hko⟩
  | cons op rest ih =>
    intro l l2 hops hf hko h
    simp only [lruGetOps] at h
    cases hg : lruGet deps max op.1 l op.2 with
    | none => rw [hg] at h; exact absurd h (by simp)
    | some res =>
      rw [hg] at h
      obtain ⟨hf2, hko2⟩ :=
        lruGet_frame (hops op (List.mem_cons_self op rest)) hg hf hko
      exact ih (fun o ho => hops o (List.mem_cons_of_mem op ho)) hf2 hko2 h

theorem lruGet_big {deps : K → List K} {max : Int} {fetch : K → FetchRes}
    {l : LruState K} {k : K} {bs : List Nat}
    (hs : sizeInv l.cache) (hnd : (l.cache.table.map Prod.fst).Nodup)
    (hko : k ∉ l.order) (hcov : ∀ j, hasKey l.cache j = true → j ∈ l.order)
    (hmax : 0 ≤ max) (hf : findEntry k l.cache.table = none)
    (hfe : fetch k = FetchRes.ok bs) (hbig : (bs.length : Int) > max) :
    ∃ l2, lruGet deps max fetch l k = some (FetchRes.ok bs, l2) ∧
      findEntry k l2.cache.table = none ∧ k ∉ l2.order := by
  have hget : GetCacheEntry fetch l.cache k = (FetchRes.ok bs,
      ⟨(k, bs) :: l.cache.table, l.cache.cacheSize + (bs.length : Int)⟩, true) :=
    GetCacheEntry_miss_ok hf hfe
  have hs1 : sizeInv (⟨(k, bs) :: l.cache.table,
      l.cache.cacheSize + (bs.length : Int)⟩ : CacheState K) := by
    rw [sizeInv] at hs ⊢
    simp only [sumLens, List.map_cons, List.sum_cons] at hs ⊢
    omega
  have hnd1 : ((((k, bs) :: l.cache.table)).map Prod.fst).Nodup := by
    simp only [List.map_cons, List.nodup_cons]
    refine ⟨?_, hnd⟩
    intro hmem
    have := mem_keys_hasKey (s := l.cache) hmem
    rw [hasKey, hf] at this
    exact absurd this (by simp)
  have hf1 : findEntry k ((k, bs) :: l.cache.table) = some bs := by
    simp [findEntry]
  have hcov1 : ∀ j, hasKey (⟨(k, bs) :: l.cache.table,
      l.cache.cacheSize + (bs.length : Int)⟩ : CacheState K) j = true →
      j ∈ l.order ++ [k] := by
    intro j hj
    by_cases hjk : j = k
    · rw [hjk]
      exact List.mem_append.mpr (Or.inr (List.mem_singleton.mpr rfl))
    · rw [hasKey] at hj
      have : findEntry j ((k, bs) :: l.cache.table) = findEntry j l.cache.table := by
        simp only [findEntry]
        rw [if_neg hjk]
      rw [this] at hj
      exact List.mem_append.mpr (Or.inl (hcov j hj))
  obtain ⟨ev, hev, h1, h2⟩ := evict_removes_big hbig hmax l.order
    ⟨(k, bs) :: l.cache.table, l.cache.cacheSize + (bs.length : Int)⟩
    hs1 hnd1 hcov1 hf1 hko
  refine ⟨⟨ev.1, ev.2⟩, ?_, h1, h2⟩
  simp only [lruGet, hget, if_neg hko]
  rw [hev]
end LruLemmas

/-! ### Lemmas about the concurrent model -/

section ConcurrentLemmas

theorem get?_set {α : Type} :
    ∀ (l : List α) (i j : Nat) (v : α),
      (l.set i v).get? j =
        if i = j ∧ i < l.length then some v else l.get? j := by
  intro l
  induction l with
  | nil => intro i j v; cases i <;> cases j <;> simp
  | cons a rest ih =>
    intro i j v
    cases i with
    | zero =>
      cases j with
      | zero => simp
      | succ j => simp
    | succ i =>
      cases j with
      | zero => simp
      | succ j =>
        show (rest.set i v).get? j =
          if i + 1 = j + 1 ∧ i + 1 < rest.length + 1 then some v else rest.get? j
        rw [ih i j v]
        by_cases h : i = j ∧ i < rest.length
        · rw [if_pos h, if_pos (by omega)]
        · rw [if_neg h, if_neg (by omega)]

theorem get?_lt_length {α : Type} {l : List α} {i : Nat} {a : α}
    (h : l.get? i = some a) : i < l.length :=
  List.get?_eq_some.mp h |>.1

theorem atMostOne_set_of_not_fetching {ts : List TState} {i : Nat} {v : TState}
    (hone : atMostOneFetching ts) (hv : ∀ e, v ≠ TState.fetching e) :
    atMostOneFetching (ts.set i v) := by
  intro p q ep eq2 hp2 hq2
  rw [get?_set] at hp2 hq2
  by_cases h1 : i = p ∧ i < ts.length
  · rw [if_pos h1] at hp2
    exact absurd (Option.some_inj.mp hp2) (hv ep)
  · rw [if_neg h1] at hp2
    by_cases h2 : i = q ∧ i < ts.length
    · rw [if_pos h2] at hq2
      exact absurd (Option.some_inj.mp hq2) (hv eq2)
    · rw [if_neg h2] at hq2
      exact hone p q ep eq2 hp2 hq2

theorem step_InvC {b : List Nat} {produce : Nat → FetchRes}
    (hp : produce 0 = FetchRes.ok b) {g g2 : GState} {i : Nat}
    (hstep : step produce g i = some g2) (hinv : InvC b g) : InvC b g2 := by
  obtain ⟨tk, res, fc, cs, ths⟩ := g
  obtain ⟨hres, htab, hcnt, hth, hone⟩ := hinv
  dsimp only at hres htab hcnt hth hone
  simp only [step] at hstep
  rcases hres with hE | hN | hS
  · -- results = []
    subst hE
    have htk : tk = none := by rw [htab]; simp
    cases ht : ths.get? i with
    | none => rw [ht] at hstep; exact absurd hstep (by simp)
    | some t =>
      rw [ht] at hstep
      have hlen : i < ths.length := get?_lt_length ht
      cases t with
      | start =>
        rw [htk] at hstep
        dsimp only at hstep
        replace hstep := Option.some_inj.mp hstep
        subst hstep
        refine ⟨Or.inr (Or.inl rfl), by simp, by simp [hcnt], ?_, ?_⟩
        · intro j t hj
          rw [get?_set] at hj
          by_cases hij : i = j ∧ i < ths.length
          · rw [if_pos hij] at hj
            rw [← Option.some_inj.mp hj]
            exact ⟨rfl, rfl⟩
          · rw [if_neg hij] at hj
            have := hth j t hj
            cases t with
            | start => trivial
            | waiting e => exact this
            | fetching e => exact absurd this.2 (by simp)
            | cleanup e r => exact absurd this.2.2 (by simp)
            | done r => exact absurd this.2 (by simp)
        · intro p q ep eq2 hp2 hq2
          dsimp only at hp2 hq2
          rw [get?_set] at hp2 hq2
          by_cases h1 : i = p ∧ i < ths.length
          · rw [if_pos h1] at hp2
            by_cases h2 : i = q ∧ i < ths.length
            · omega
            · rw [if_neg h2] at hq2
              exact absurd (hth q _ hq2).2 (by simp)
          · rw [if_neg h1] at hp2
            exact absurd (hth p _ hp2).2 (by simp)
      | waiting eid =>
        dsimp only at hstep
        exact absurd hstep (by simp)
      | fetching eid =>
        exact absurd (hth i _ ht).2 (by simp)
      | cleanup eid r =>
        exact absurd (hth i _ ht).2.2 (by simp)
      | done r =>
        exact absurd hstep (by simp)
  · -- results = [none]
    subst hN
    have htk : tk = some 0 := by rw [htab]; simp
    have hfc : fc = 0 := by rw [hcnt]; simp
    cases ht : ths.get? i with
    | none => rw [ht] at hstep; exact absurd hstep (by simp)
    | some t =>
      rw [ht] at hstep
      have hlen : i < ths.length := get?_lt_length ht
      cases t with
      | start =>
        rw [htk] at hstep
        dsimp only at hstep
        replace hstep := Option.some_inj.mp hstep
        subst hstep
        refine ⟨Or.inr (Or.inl rfl), by simp, by simp [hfc], ?_, ?_⟩
        · intro j t hj
          rw [get?_set] at hj
          by_cases hij : i = j ∧ i < ths.length
          · rw [if_pos hij] at hj
            rw [← Option.some_inj.mp hj]
            exact rfl
          · rw [if_neg hij] at hj
            exact hth j t hj
        · exact atMostOne_set_of_not_fetching hone (by intro e h; exact absurd h (by simp))
      | waiting eid =>
        have heid : eid = 0 := hth i _ ht
        subst heid
        dsimp only at hstep
        exact absurd hstep (by simp)
      | fetching eid =>
        have heid : eid = 0 := (hth i _ ht).1
        subst heid
        replace hstep := Option.some_inj.mp hstep
        subst hstep
        rw [hfc, hp]
        refine ⟨Or.inr (Or.inr rfl), by rw [htk]; simp, by simp, ?_, ?_⟩
        · intro j t hj
          dsimp only at hj
          rw [get?_set] at hj
          by_cases hij : i = j ∧ i < ths.length
          · rw [if_pos hij] at hj
            rw [← Option.some_inj.mp hj]
            exact ⟨rfl, rfl, rfl⟩
          · rw [if_neg hij] at hj
            have hold := hth j t hj
            cases t with
            | start => trivial
            | waiting e => exact hold
            | fetching e =>
              have : j = i := hone j i e 0 hj ht
              omega
            | cleanup e r => exact absurd hold.2.2 (by simp)
            | done r => exact absurd hold.2 (by simp)
        · intro p q ep eq2 hp2 hq2
          dsimp only at hp2 hq2
          rw [get?_set] at hp2 hq2
          by_cases h1 : i = p ∧ i < ths.length
          · rw [if_pos h1] at hp2
            exact absurd (Option.some_inj.mp hp2) (by simp)
          · rw [if_neg h1] at hp2
            have : p = i := hone p i ep 0 hp2 ht
            omega
      | cleanup eid r =>
        exact absurd (hth i _ ht).2.2 (by simp)
      | done r =>
        exact absurd hstep (by simp)
  · -- results = [some (FetchRes.ok b)]
    subst hS
    have htk : tk = some 0 := by rw [htab]; simp
    have hfc : fc = 1 := by rw [hcnt]; simp
    cases ht : ths.get? i with
    | none => rw [ht] at hstep; exact absurd hstep (by simp)
    | some t =>
      rw [ht] at hstep
      have hlen : i < ths.length := get?_lt_length ht
      cases t with
      | start =>
        rw [htk] at hstep
        dsimp only at hstep
        replace hstep := Option.some_inj.mp hstep
        subst hstep
        refine ⟨Or.inr (Or.inr rfl), by simp, by simp [hfc], ?_, ?_⟩
        · intro j t hj
          rw [get?_set] at hj
          by_cases hij : i = j ∧ i < ths.length
          · rw [if_pos hij] at hj
            rw [← Option.some_inj.mp hj]
            exact rfl
          · rw [if_neg hij] at hj
            exact hth j t hj
        · exact atMostOne_set_of_not_fetching hone (by intro e h; exact absurd h (by simp))
      | waiting eid =>
        have heid : eid = 0 := hth i _ ht
        subst heid
        dsimp only at hstep
        replace hstep := Option.some_inj.mp hstep
        subst hstep
        refine ⟨Or.inr (Or.inr rfl), htab, hcnt, ?_, ?_⟩
        · intro j t hj
          rw [get?_set] at hj
          by_cases hij : i = j ∧ i < ths.length
          · rw [if_pos hij] at hj
            rw [← Option.some_inj.mp hj]
            exact ⟨rfl, rfl⟩
          · rw [if_neg hij] at hj
            exact hth j t hj
        · exact atMostOne_set_of_not_fetching hone (by intro e h; exact absurd h (by simp))
      | fetching eid =>
        exact absurd (hth i _ ht).2 (by simp)
      | cleanup eid r =>
        have hr : r = FetchRes.ok b := (hth i _ ht).2.1
        subst hr
        dsimp only at hstep
        replace hstep := Option.some_inj.mp hstep
        subst hstep
        refine ⟨Or.inr (Or.inr rfl), htab, hcnt, ?_, ?_⟩
        · intro j t hj
          rw [get?_set] at hj
          by_cases hij : i = j ∧ i < ths.length
          · rw [if_pos hij] at hj
            rw [← Option.some_inj.mp hj]
            exact ⟨rfl, rfl⟩
          · rw [if_neg hij] at hj
            exact hth j t hj
        · exact atMostOne_set_of_not_fetching hone (by intro e h; exact absurd h (by simp))
      | done r =>
        exact absurd hstep (by simp)

theorem run_InvC {b : List Nat} {produce : Nat → FetchRes}
    (hp : produce 0 = FetchRes.ok b) :
    ∀ {sched : List Nat} {g : GState}, InvC b g →
      InvC b (run produce g sched) := by
  intro sched
  induction sched with
  | nil => intro g h; exact h
  | cons i rest ih =>
    intro g h
    show InvC b (run produce ((step produce g i).getD g) rest)
    apply ih
    cases hs : step produce g i with
    | none => exact h
    | some g2 => exact step_InvC hp hs h

theorem initG_InvC {b : List Nat} {N : Nat} : InvC b (initG N) := by
  refine ⟨Or.inl rfl, rfl, rfl, ?_, ?_⟩
  · intro j t hj
    have := List.eq_of_mem_replicate (List.get?_mem hj)
    rw [this]
    trivial
  · intro p q ep eq2 hp2 _
    have := List.eq_of_mem_replicate (List.get?_mem hp2)
    exact absurd this (by simp)

theorem step_threads_length {produce : Nat → FetchRes} {g g2 : GState} {i : Nat}
    (hstep : step produce g i = some g2) :
    g2.threads.length = g.threads.length := by
  obtain ⟨tk, res, fc, cs, ths⟩ := g
  simp only [step] at hstep
  cases ht : ths.get? i with
  | none => rw [ht] at hstep; exact absurd hstep (by simp)
  | some t =>
    rw [ht] at hstep
    cases t with
    | start =>
      cases tk with
      | none =>
        dsimp only at hstep
        rw [← Option.some_inj.mp hstep]
        simp
      | some eid =>
        dsimp only at hstep
        rw [← Option.some_inj.mp hstep]
        simp
    | waiting eid =>
      dsimp only at hstep
      cases hr : res.get? eid with
      | none => rw [hr] at hstep; exact absurd hstep (by simp)
      | some ro =>
        rw [hr] at hstep
        cases ro with
        | none => exact absurd hstep (by simp)
        | some r =>
          rw [← Option.some_inj.mp hstep]
          simp
    | fetching eid =>
      rw [← Option.some_inj.mp hstep]
      simp
    | cleanup eid r =>
      cases r with
      | ok bs =>
        dsimp only at hstep
        rw [← Option.some_inj.mp hstep]
        simp
      | error e =>
        dsimp only at hstep
        rw [← Option.some_inj.mp hstep]
        simp
    | done r => exact absurd hstep (by simp)

theorem run_threads_length {produce : Nat → FetchRes} :
    ∀ {sched : List Nat} {g : GState},
      (run produce g sched).threads.length = g.threads.length := by
  intro sched
  induction sched with
  | nil => intro g; rfl
  | cons i rest ih =>
    intro g
    show (run produce ((step produce g i).getD g) rest).threads.length = _
    rw [ih]
    cases hs : step produce g i with
    | none => rfl
    | some g2 => exact step_threads_length hs

end ConcurrentLemmas

/-! ### Claim theorems -/

/-- C1: producer errors are never cached.  For every key whose entry is
absent, a `GetCacheEntry` whose producer fails returns the error, invokes
the producer, and leaves the key absent (state unchanged); a subsequent
sequential call invokes the producer again, and on success its result is
stored; a third call returns the cached bytes without invoking the
producer. -/
theorem producer_errors_never_cached {K : Type} [DecidableEq K]
    (s : CacheState K) (k : K) (f1 f2 f3 : K → FetchRes) (e : Nat)
    (bs : List Nat) (h0 : findEntry k s.table = none)
    (h1 : f1 k = FetchRes.error e) (h2 : f2 k = FetchRes.ok bs) :
    GetCacheEntry f1 s k = (FetchRes.error e, s, true) ∧
    findEntry k (GetCacheEntry f1 s k).2.1.table = none ∧
    GetCacheEntry f2 (GetCacheEntry f1 s k).2.1 k = (FetchRes.ok bs,
      ⟨(k, bs) :: s.table, s.cacheSize + (bs.length : Int)⟩, true) ∧
    GetCacheEntry f3 (GetCacheEntry f2 (GetCacheEntry f1 s k).2.1 k).2.1 k =
      (FetchRes.ok bs,
        ⟨(k, bs) :: s.table, s.cacheSize + (bs.length : Int)⟩, false) := by
  have hg1 : GetCacheEntry f1 s k = (FetchRes.error e, s, true) :=
    GetCacheEntry_miss_err h0 h1
  have hg2 : GetCacheEntry f2 (GetCacheEntry f1 s k).2.1 k = (FetchRes.ok bs,
      ⟨(k, bs) :: s.table, s.cacheSize + (bs.length : Int)⟩, true) := by
    rw [hg1]
    exact GetCacheEntry_miss_ok h0 h2
  have hfk : findEntry k ((k, bs) :: s.table) = some bs := by
    simp [findEntry]
  refine ⟨hg1, ?_, hg2, ?_⟩
  · rw [hg1]
    exact h0
  · rw [hg2]
    exact GetCacheEntry_hit hfk

/-- Witness for C1 at a concrete erroring-then-succeeding producer. -/
theorem producer_errors_never_cached_witness :
    GetCacheEntry fetchErr3 (⟨[], 0⟩ : CacheState Nat) 0 =
      (FetchRes.error 3, ⟨[], 0⟩, true) ∧
    findEntry 0 (GetCacheEntry fetchErr3 (⟨[], 0⟩ : CacheState Nat) 0).2.1.table
      = none ∧
    GetCacheEntry fetchOk12
        (GetCacheEntry fetchErr3 (⟨[], 0⟩ : CacheState Nat) 0).2.1 0 =
      (FetchRes.ok [1, 2], ⟨[(0, [1, 2])],
        (0 : Int) + ((([1, 2] : List Nat)).length : Int)⟩, true) ∧
    GetCacheEntry fetchOk12 (GetCacheEntry fetchOk12
        (GetCacheEntry fetchErr3 (⟨[], 0⟩ : CacheState Nat) 0).2.1 0).2.1 0 =
      (FetchRes.ok [1, 2], ⟨[(0, [1, 2])],
        (0 : Int) + ((([1, 2] : List Nat)).length : Int)⟩, false) :=
  producer_errors_never_cached ⟨[], 0⟩ 0 fetchErr3 fetchOk12 fetchOk12 3 [1, 2]
    rfl rfl rfl

/-- C2: `Invalidate` removes the entry for the key when present and
returns exactly its prior presence; with `recursive = true` it also
removes every cached key transitively depending on the invalidated key;
with `recursive = false` it removes only the key itself; concretely, with
`Dependencies(B) = [A]` and both cached, `Invalidate(A, true)` leaves B
absent while `Invalidate(A, false)` leaves B cached. -/
theorem invalidate_removes_dependents {K : Type} [DecidableEq K]
    (deps : K → List K) (s : CacheState K) (key : K) :
    (∀ recursive, (Invalidate deps s key recursive).2 = hasKey s key) ∧
    ((s.table.map Prod.fst).Nodup → hasKey s key = true →
      ∀ k, DependsOn deps (s.table.map Prod.fst) key k →
        hasKey (Invalidate deps s key true).1 k = false) ∧
    (∀ bs, findEntry key s.table = some bs →
      Invalidate deps s key false =
        (⟨removeKey key s.table, s.cacheSize - (bs.length : Int)⟩, true)) ∧
    (hasKey (Invalidate deps01 sAB 0 true).1 1 = false ∧
     hasKey (Invalidate deps01 sAB 0 false).1 1 = true ∧
     hasKey (Invalidate deps01 sAB 0 true).1 0 = false ∧
     hasKey (Invalidate deps01 sAB 0 false).1 0 = false ∧
     (Invalidate deps01 sAB 0 true).2 = true ∧
     (Invalidate deps01 sAB 0 false).2 = true) :=
  ⟨fun _ => Invalidate_snd,
   fun hnd hk => dependsOn_removed hnd hk,
   fun _ hf => Invalidate_nonrec hf,
   by decide⟩

/-- Witness for C2 on the concrete A/B dependency pair. -/
theorem invalidate_removes_dependents_witness :
    (Invalidate deps01 sAB 0 true).2 = hasKey sAB 0 ∧
    hasKey (Invalidate deps01 sAB 0 true).1 1 = false ∧
    Invalidate deps01 sAB 0 false =
      (⟨removeKey 0 sAB.table, sAB.cacheSize - ((([7] : List Nat)).length : Int)⟩,
        true) :=
  ⟨(invalidate_removes_dependents deps01 sAB 0).1 true,
   (invalidate_removes_dependents deps01 sAB 0).2.1 (by decide) (by decide) 1
     (DependsOn.direct (by decide) (by decide)),
   (invalidate_removes_dependents deps01 sAB 0).2.2.1 [7] (by decide)⟩

/-- C3: after any sequence of Get and Invalidate operations from the empty
cache, the running size total equals the exact sum of cached payload byte
lengths, and a failed fetch leaves the state (hence the total) unchanged. -/
theorem size_accounting {K : Type} [DecidableEq K] (deps : K → List K)
    (ops : List (CacheOp K)) :
    sizeInv (execOps deps (⟨[], 0⟩ : CacheState K) ops) ∧
    (∀ (fetch : K → FetchRes) (s : CacheState K) (k : K) (e : Nat),
      fetch k = FetchRes.error e → (GetCacheEntry fetch s k).2.1 = s) := by
  constructor
  · exact execOps_size rfl
  · intro fetch s k e hfe
    cases hf : findEntry k s.table with
    | some bs => rw [GetCacheEntry_hit hf]
    | none => rw [GetCacheEntry_miss_err hf hfe]

/-- Witness for C3 on a concrete operation sequence with a failing
fetch. -/
theorem size_accounting_witness :
    sizeInv (execOps depsNone (⟨[], 0⟩ : CacheState Nat)
      [CacheOp.get fetchOk12 0, CacheOp.get fetchErr3 1, CacheOp.inval 0 true]) ∧
    (GetCacheEntry fetchErr3 (⟨[(0, [1, 2])], 2⟩ : CacheState Nat) 1).2.1 =
      ⟨[(0, [1, 2])], 2⟩ :=
  ⟨(size_accounting depsNone
      [CacheOp.get fetchOk12 0, CacheOp.get fetchErr3 1, CacheOp.inval 0 true]).1,
   (size_accounting depsNone ([] : List (CacheOp Nat))).2 fetchErr3
     ⟨[(0, [1, 2])], 2⟩ 1 3 rfl⟩

/-- C4: on a budget-9 LRU cache, after Get on keys 0,1,2 (sizes 1,2,3)
then Get(0) again, a Get(3) of size 4 evicts exactly key 1, leaving
0,2,3 cached; a further Get(4) of size 5 evicts oldest-first until within
budget, leaving exactly 3 and 4 cached.  Each step is asserted to complete
(return `some`, so the eviction loop never crashes) with the exact
resulting state. -/
theorem lru_eviction_order :
    lruGet depsNone 9 fetchSizes lru0 0 = some (FetchRes.ok [0], lruA) ∧
    lruGet depsNone 9 fetchSizes lruA 1 = some (FetchRes.ok [0, 0], lruB) ∧
    lruGet depsNone 9 fetchSizes lruB 2 = some (FetchRes.ok [0, 0, 0], lruC) ∧
    lruGet depsNone 9 fetchSizes lruC 0 = some (FetchRes.ok [0], lruA2) ∧
    lruGet depsNone 9 fetchSizes lruA2 3 =
      some (FetchRes.ok [0, 0, 0, 0], lruD) ∧
    lruGet depsNone 9 fetchSizes lruD 4 =
      some (FetchRes.ok [0, 0, 0, 0, 0], lruE) ∧
    (hasKey lruD.cache 0 = true ∧ hasKey lruD.cache 2 = true ∧
     hasKey lruD.cache 3 = true ∧ hasKey lruD.cache 1 = false) ∧
    (hasKey lruE.cache 3 = true ∧ hasKey lruE.cache 4 = true ∧
     hasKey lruE.cache 0 = false ∧ hasKey lruE.cache 1 = false ∧
     hasKey lruE.cache 2 = false) := by
  decide

/-- Counterexample to C5: with budget 1 and a 2-byte payload, the
admitting `Get` itself evicts the oversized entry: the payload is returned
to the caller, but the entry is already absent (from `Peek` and `Entries`)
when that `Get` returns, not merely after the next `Get`. -/
theorem oversized_entry_counterexample :
    lruGet depsNone 1 bigFetch lru0 0 =
      some (FetchRes.ok [0, 0], ⟨⟨[], 0⟩, []⟩) ∧
    Peek (⟨[], 0⟩ : CacheState Nat) 0 = false ∧
    Entries (⟨[], 0⟩ : CacheState Nat) = [] := by
  decide

/-- C5 amended: when the decorator is in a normally-maintained state
(every cached key is in the recency order, nonnegative budget), a fetch of
an entry strictly larger than the whole budget still completes — the
eviction loop does not crash — and returns the payload to the caller, but
the eviction pass of the same admitting `Get` removes the entry, so it is
absent from the cache and the recency order when that `Get` returns.
Without those conditions the Go code can crash on `Remove(nil)` inside the
admitting `Get` (modelled by `lruGet` returning `none`) and never return
the payload at all. -/
theorem oversized_entry_evicted_same_get {K : Type} [DecidableEq K]
    (deps : K → List K) (max : Int) (fetch : K → FetchRes) (l : LruState K)
    (k : K) (bs : List Nat) (hs : sizeInv l.cache)
    (hnd : (l.cache.table.map Prod.fst).Nodup) (hko : k ∉ l.order)
    (hcov : ∀ j, hasKey l.cache j = true → j ∈ l.order) (hmax : 0 ≤ max)
    (hf : findEntry k l.cache.table = none) (hfe : fetch k = FetchRes.ok bs)
    (hbig : (bs.length : Int) > max) :
    ∃ l2, lruGet deps max fetch l k = some (FetchRes.ok bs, l2) ∧
      Peek l2.cache k = false ∧ k ∉ l2.order := by
  obtain ⟨l2, h0, h2, h3⟩ := lruGet_big hs hnd hko hcov hmax hf hfe hbig
  refine ⟨l2, h0, ?_, h3⟩
  rw [Peek, h2]
  rfl

/-- Witness for the amended C5 on the concrete budget-1 cache. -/
theorem oversized_entry_evicted_same_get_witness :
    ∃ l2, lruGet depsNone 1 bigFetch lru0 0 = some (FetchRes.ok [0, 0], l2) ∧
      Peek l2.cache 0 = false ∧ 0 ∉ l2.order :=
  oversized_entry_evicted_same_get depsNone 1 bigFetch lru0 0 [0, 0]
    rfl (by decide) (List.not_mem_nil 0)
    (by intro j hj; simp [hasKey, findEntry] at hj) (by decide) rfl rfl
    (by decide)

/-- C6: `Peek` returns true exactly when the key has a resolved entry and
false when it is absent; it never triggers a fetch (a hit afterwards
returns the cached bytes without invoking the producer) and never creates
an entry; on a pending entry it blocks (no return value) until the fetch
resolves, then reports success exactly when the fetch did not fail. -/
theorem peek_semantics {K : Type} [DecidableEq K] (s : CacheState K) (k : K) :
    (Peek s k = true ↔ ∃ bs, findEntry k s.table = some bs) ∧
    (Peek s k = false ↔ findEntry k s.table = none) ∧
    (∀ bs, findEntry k s.table = some bs →
      ∀ fetch, GetCacheEntry fetch s k = (FetchRes.ok bs, s, false)) ∧
    (∀ g : GState, g.tableK = none → peekK g = some false) ∧
    (∀ (g : GState) (eid : Nat) (bs2 : List Nat), g.tableK = some eid →
      g.results.get? eid = some (some (FetchRes.ok bs2)) → peekK g = some true) ∧
    (∀ (g : GState) (eid : Nat) (e : Nat), g.tableK = some eid →
      g.results.get? eid = some (some (FetchRes.error e)) →
        peekK g = some false) ∧
    (∀ (g : GState) (eid : Nat), g.tableK = some eid →
      g.results.get? eid = some none → peekK g = none) := by
  refine ⟨?_, ?_, ?_, ?_, ?_, ?_, ?_⟩
  · rw [Peek]
    exact Option.isSome_iff_exists
  · cases hf : findEntry k s.table <;> simp [Peek, hf]
  · intro bs hf fetch
    exact GetCacheEntry_hit hf
  · intro g hg
    rw [peekK, hg]
  · intro g eid bs2 hg hr
    rw [peekK, hg]
    dsimp only
    rw [hr]
  · intro g eid e hg hr
    rw [peekK, hg]
    dsimp only
    rw [hr]
  · intro g eid hg hr
    rw [peekK, hg]
    dsimp only
    rw [hr]

/-- Witness for C6 on resolved, absent, failed and pending entries. -/
theorem peek_semantics_witness :
    Peek sPeek 0 = true ∧ Peek sPeek 1 = false ∧
    GetCacheEntry fetchErr3 sPeek 0 = (FetchRes.ok [5], sPeek, false) ∧
    peekK (initG 2) = some false ∧
    peekK gFailed = some false ∧
    peekK gPending = none :=
  ⟨(peek_semantics sPeek 0).1.mpr ⟨[5], by decide⟩,
   (peek_semantics sPeek 1).2.1.mpr (by decide),
   (peek_semantics sPeek 0).2.2.1 [5] (by decide) fetchErr3,
   (peek_semantics sPeek 0).2.2.2.1 (initG 2) rfl,
   (peek_semantics sPeek 0).2.2.2.2.2.1 gFailed 0 2 rfl rfl,
   (peek_semantics sPeek 0).2.2.2.2.2.2 gPending 0 rfl rfl⟩

/-- Counterexample to C7: with two concurrent callers on a fresh key and a
producer that fails on its first invocation, the interleaving in which the
second caller acquires the lock only after the failed entry has been
removed invokes the producer twice, and the two callers return different
results — refuting that the producer runs exactly once with all callers
receiving the identical result. -/
theorem single_flight_counterexample :
    (run produceEF (initG 2) [0, 0, 0, 1, 1, 1]).fetchCount = 2 ∧
    (run produceEF (initG 2) [0, 0, 0, 1, 1, 1]).threads =
      [TState.done (FetchRes.error 7), TState.done (FetchRes.ok [1])] := by
  decide

/-- C7 amended: when the first producer invocation succeeds, every
interleaving of N concurrent `GetCacheEntry` calls on a fresh key invokes
the producer at most once, every caller that has returned got that same
successful result, and once all N callers returned (N positive) the
producer ran exactly once. -/
theorem single_flight_on_success (b : List Nat) (produce : Nat → FetchRes)
    (hp : produce 0 = FetchRes.ok b) (N : Nat) (sched : List Nat) :
    (run produce (initG N) sched).fetchCount ≤ 1 ∧
    (∀ r, TState.done r ∈ (run produce (initG N) sched).threads →
      r = FetchRes.ok b) ∧
    ((∀ t ∈ (run produce (initG N) sched).threads, ∃ r, t = TState.done r) →
      0 < N → (run produce (initG N) sched).fetchCount = 1) := by
  have hinv : InvC b (run produce (initG N) sched) := run_InvC hp initG_InvC
  obtain ⟨hres, htab, hcnt, hth, hone⟩ := hinv
  refine ⟨?_, ?_, ?_⟩
  · rw [hcnt]
    split <;> omega
  · intro r hmem
    obtain ⟨j, hj⟩ := List.mem_iff_get?.mp hmem
    exact (hth j _ hj).1
  · intro hall hN
    have hlen : (run produce (initG N) sched).threads.length = N := by
      rw [run_threads_length]
      simp [initG]
    cases hthreads : (run produce (initG N) sched).threads with
    | nil =>
      rw [hthreads] at hlen
      simp at hlen
      omega
    | cons t restT =>
      have htmem : t ∈ (run produce (initG N) sched).threads := by
        rw [hthreads]
        exact List.mem_cons_self t restT
      obtain ⟨r, hr⟩ := hall t htmem
      rw [hr] at htmem
      obtain ⟨j, hj⟩ := List.mem_iff_get?.mp htmem
      have hres1 := (hth j _ hj).2
      rw [hcnt, if_pos hres1]

/-- Witness for the amended C7: two concurrent callers, a succeeding
producer, a schedule driving both to completion — exactly one
invocation. -/
theorem single_flight_on_success_witness :
    0 < 2 ∧ (run produceOK (initG 2) [0, 0, 0, 1, 1]).fetchCount = 1 :=
  ⟨by decide,
   (single_flight_on_success [1] produceOK rfl 2 [0, 0, 0, 1, 1]).2.2
     (by
       intro t ht
       have he : (run produceOK (initG 2) [0, 0, 0, 1, 1]).threads =
           [TState.done (FetchRes.ok [1]), TState.done (FetchRes.ok [1])] := by
         decide
       rw [he] at ht
       simp only [List.mem_cons, List.not_mem_nil, or_false] at ht
       rcases ht with rfl | rfl
       · exact ⟨FetchRes.ok [1], rfl⟩
       · exact ⟨FetchRes.ok [1], rfl⟩)
     (by decide)⟩

/-- C8: recursive invalidation terminates on every finite cache — the
fuel `table.length + 1` used by `Invalidate` is always sufficient, for
every dependency map including cyclic ones — and an already-removed key is
never re-processed: invalidating an absent key is a no-op returning
false. -/
theorem recursive_invalidation_terminates {K : Type} [DecidableEq K]
    (deps : K → List K) (s : CacheState K) (key : K) (recursive : Bool) :
    (invalidateOpt deps (s.table.length + 1) s key recursive).isSome = true ∧
    (∀ (fuel : Nat) (k : K), findEntry k s.table = none →
      invalidateOpt deps (fuel + 1) s k true = some (s, false)) :=
  ⟨invalidateOpt_isSome (Nat.lt_succ_self _),
   fun _ _ hf => invalidateOpt_absent hf⟩

/-- Witness for C8 on a cache whose two keys depend on each other. -/
theorem recursive_invalidation_terminates_witness :
    (invalidateOpt depsCyc (sCyc.table.length + 1) sCyc 0 true).isSome = true ∧
    invalidateOpt depsCyc (0 + 1) sCyc 5 true = some (sCyc, false) :=
  ⟨(recursive_invalidation_terminates depsCyc sCyc 0 true).1,
   (recursive_invalidation_terminates depsCyc sCyc 0 true).2 0 5 (by decide)⟩

/-- C9: invalidating an absent key returns false and changes nothing, on
the engine (table and size total untouched) and on the LRU decorator
(delegate state and recency order untouched). -/
theorem invalidate_absent_noop {K : Type} [DecidableEq K] (deps : K → List K)
    (s : CacheState K) (k : K) (recursive : Bool) (l : LruState K)
    (hs : findEntry k s.table = none) (hl : findEntry k l.cache.table = none) :
    Invalidate deps s k recursive = (s, false) ∧
    lruInvalidate deps l k recursive = some (l, false) :=
  ⟨Invalidate_absent hs, lruInvalidate_absent hl⟩

/-- Witness for C9 at an absent key of concrete engine and LRU states. -/
theorem invalidate_absent_noop_witness :
    Invalidate depsNone (⟨[], 0⟩ : CacheState Nat) 3 true = (⟨[], 0⟩, false) ∧
    lruInvalidate depsNone lru0 3 true = some (lru0, false) :=
  invalidate_absent_noop depsNone ⟨[], 0⟩ 3 true lru0 rfl rfl

/-- C10: a key first fetched through the decorator's `GetCacheEntry` is
stored in the wrapped engine and counted in the size total but never enters
the recency order, and therefore survives the budget-eviction loop of every
later `Get` on other keys (the loop only evicts keys present in the
recency order): at every state such later traffic realizes — i.e. whenever
the sequence of later Gets completes without the eviction loop crashing —
the entry is still cached and still outside the recency order. -/
theorem lru_getcacheentry_no_recency {K : Type} [DecidableEq K]
    (deps : K → List K) (max : Int) (fetch : K → FetchRes) (l : LruState K)
    (k : K) (bs : List Nat) (hf : findEntry k l.cache.table = none)
    (hko : k ∉ l.order) (hfe : fetch k = FetchRes.ok bs) :
    lruGetCacheEntry fetch l k = (FetchRes.ok bs,
      ⟨⟨(k, bs) :: l.cache.table,
        l.cache.cacheSize + (bs.length : Int)⟩, l.order⟩) ∧
    (∀ ops : List ((K → FetchRes) × K), (∀ op ∈ ops, op.2 ≠ k) →
      ∀ l2, lruGetOps deps max ops (lruGetCacheEntry fetch l k).2 = some l2 →
        findEntry k l2.cache.table = some bs ∧ k ∉ l2.order) := by
  have hg : lruGetCacheEntry fetch l k = (FetchRes.ok bs,
      ⟨⟨(k, bs) :: l.cache.table,
        l.cache.cacheSize + (bs.length : Int)⟩, l.order⟩) := by
    simp only [lruGetCacheEntry, GetCacheEntry_miss_ok hf hfe]
  refine ⟨hg, ?_⟩
  intro ops hops l2 h
  rw [hg] at h
  refine lruGetOps_frame hops ?_ ?_ h
  · simp [findEntry]
  · exact hko

/-- Witness for C10: a key fetched via `lruGetCacheEntry` survives a later
completed `lruGet` on another key and stays outside the recency order. -/
theorem lru_getcacheentry_no_recency_witness :
    findEntry 0 ((⟨⟨[(1, [0, 0]), (0, [1, 2])], 4⟩, [1]⟩ :
      LruState Nat)).cache.table = some [1, 2] ∧
    0 ∉ ((⟨⟨[(1, [0, 0]), (0, [1, 2])], 4⟩, [1]⟩ : LruState Nat)).order :=
  (lru_getcacheentry_no_recency depsNone 9 fetchOk12 lru0 0 [1, 2] rfl
    (List.not_mem_nil 0) rfl).2 [(fetchSizes, 1)]
    (by
      intro op hop
      rw [List.mem_singleton.mp hop]
      decide)
    ⟨⟨[(1, [0, 0]), (0, [1, 2])], 4⟩, [1]⟩ (by decide)

end RCache
